import Mathlib

/-!
# nickminer-go: a shallow embedding of `faucet-wasm/nickminer-go/main.go`

The miner enumerates signature components `s`, recovers a sender address for each of them,
derives the contract-creation address of that sender and scores its tail against a target
suffix.  Bytes are natural numbers below 256, `math/big` integers (never negative in this
program) are natural numbers, a Go panic is the `error` side of `Except Panic`.

The two library primitives the program calls (`sha3.NewLegacyKeccak256` and
`btcec/ecdsa.RecoverCompact`) are parameters, bundled in `Primitives`.
-/

set_option maxRecDepth 1000000

namespace NickMiner

/-! ## Go runtime model -/

/-- The ways in which the embedded code can panic. -/
inductive Panic where
  /-- Index out of range on an array or slice access. -/
  | indexOutOfRange
  /-- Slice bounds out of range in a slice expression. -/
  | sliceBounds
  /-- Method call through a nil pointer. -/
  | nilDeref
  /-- Call of `panic(err)` with the error returned by `recoverPlain`. -/
  | recoverFailed (err : String)
  /-- Call of `Value.Int()` on a JavaScript value that is not a number. -/
  | jsValueType
  deriving DecidableEq

instance instDecidableEqExcept {ε α : Type} [DecidableEq ε] [DecidableEq α] :
    DecidableEq (Except ε α)
  | .ok a, .ok b =>
    if h : a = b then isTrue (by rw [h]) else isFalse (by intro h2; cases h2; exact h rfl)
  | .error a, .error b =>
    if h : a = b then isTrue (by rw [h]) else isFalse (by intro h2; cases h2; exact h rfl)
  | .ok _, .error _ => isFalse (by intro h; cases h)
  | .error _, .ok _ => isFalse (by intro h; cases h)

/-- Subtraction of two `uint8` values: wraps modulo 256. -/
def u8sub (a b : Nat) : Nat := (a % 256 + (256 - b % 256)) % 256

/-- Addition of two `uint8` values: wraps modulo 256. -/
def u8add (a b : Nat) : Nat := (a + b) % 256

/-- Indexing `xs[pos]` with a signed index: panics outside `0 .. len(xs)-1`. -/
def byteAt (xs : List Nat) (pos : Int) : Except Panic Nat :=
  if pos < 0 then .error .indexOutOfRange
  else match xs.get? pos.toNat with
    | some b => .ok b
    | none => .error .indexOutOfRange

/-! ## The scorer (`runHash`, lines 85-101) -/

/-- The value added to `score` for one compared byte: `int(highValue + lowValue)`, all of
`highDiff`, `highValue`, `lowDiff`, `lowValue` being `uint8`. -/
def scoreVal (a t : Nat) : Nat :=
  let highDiff := u8sub (a / 16 % 256) (t / 16 % 256)
  let highValue := u8sub 15 highDiff
  let lowDiff := u8sub (a % 16) (t % 16)
  let lowValue := u8sub 15 lowDiff
  u8add highValue lowValue

/-- The per-nibble value of the scorer: `15 - (a - t)` in `uint8` arithmetic. -/
def nibbleValue (a t : Nat) : Nat := u8sub 15 (u8sub a t)

/-- The variable `score` after `k` iterations of the inner loop. -/
def scoreLoop (addr outputSuffix : List Nat) : Nat → Except Panic Nat
  | 0 => .ok 0
  | k + 1 =>
    match scoreLoop addr outputSuffix k with
    | .error e => .error e
    | .ok score =>
      let addrpos : Int := 20 - (outputSuffix.length : Int) + (k : Int)
      match byteAt addr addrpos with
      | .error e => .error e
      | .ok a =>
        match byteAt outputSuffix (k : Int) with
        | .error e => .error e
        | .ok t => .ok (score + scoreVal a t)

/-- The score of `addr` against `outputSuffix`: the inner loop run `suffixLen` times. -/
def score (addr outputSuffix : List Nat) : Except Panic Nat :=
  scoreLoop addr outputSuffix outputSuffix.length

/-! ## `math/big` and `encoding/hex` as used by the program -/

/-- The number of base-256 digits of `n`, counted in at most `fuel` steps. -/
def bigLenAux : Nat → Nat → Nat
  | 0, _ => 0
  | fuel + 1, n => if n = 0 then 0 else bigLenAux fuel (n / 256) + 1

/-- The length of `x.Bytes()`: the least number of bytes that holds `n`, 0 for `n = 0`. -/
def bigLen (n : Nat) : Nat := bigLenAux n n

/-- The slice `x.Bytes()`: the big-endian bytes of `n` without leading zero bytes. -/
def bigBytes (n : Nat) : List Nat :=
  (List.range (bigLen n)).map (fun k => n / 256 ^ (bigLen n - 1 - k) % 256)

/-- The integer of `x.SetBytes(buf)`: `buf` read as a big-endian unsigned integer. -/
def setBytes (buf : List Nat) : Nat := buf.foldl (fun acc b => acc * 256 + b % 256) 0

/-- The builtin `copy(dst, src)`: the contents of `dst` afterwards. -/
def goCopy (dst src : List Nat) : List Nat := src.take dst.length ++ dst.drop src.length

/-- The statement `copy(buf[lo:hi], src)`: panics when the slice bounds are out of range,
otherwise the contents of `buf` afterwards. -/
def copyInto (buf : List Nat) (lo hi : Int) (src : List Nat) : Except Panic (List Nat) :=
  if lo < 0 ∨ hi < lo ∨ (buf.length : Int) < hi then .error .sliceBounds
  else .ok (buf.take lo.toNat
    ++ goCopy ((buf.drop lo.toNat).take (hi.toNat - lo.toNat)) src
    ++ buf.drop hi.toNat)

/-- The table lookup of `encoding/hex`: the value of one hexadecimal digit character. -/
def fromHexChar (c : Nat) : Option Nat :=
  if 48 ≤ c ∧ c ≤ 57 then some (c - 48)
  else if 97 ≤ c ∧ c ≤ 102 then some (c - 87)
  else if 65 ≤ c ∧ c ≤ 70 then some (c - 55)
  else none

/-- The function `hex.DecodeString`: the bytes decoded before the first error, and whether
an error occurred. -/
def hexDecodeString : List Nat → List Nat × Bool
  | p :: q :: rest =>
    match fromHexChar p, fromHexChar q with
    | some a, some b =>
      let r := hexDecodeString rest
      ((a * 16 + b) :: r.1, r.2)
    | _, _ => ([], true)
  | [_] => ([], true)
  | [] => ([], false)

/-- One lowercase hexadecimal digit character. -/
def hexDigit (d : Nat) : Nat := if d < 10 then 48 + d else 87 + d

/-- The verb `%x` of `fmt` on a byte slice: two lowercase digits per byte. -/
def hexEncode (bs : List Nat) : List Nat :=
  bs.flatMap (fun b => [hexDigit (b / 16 % 16), hexDigit (b % 16)])

/-- The bytes of an ASCII string literal. -/
def ascii (s : String) : List Nat := s.toList.map Char.toNat

/-! ## The library primitives -/

/-- The two cryptographic library functions, with what their Go types guarantee. -/
structure Primitives where
  /-- The digest of `sha3.NewLegacyKeccak256` on the written bytes. -/
  keccak : List Nat → List Nat
  /-- The digest is read into a `[32]byte`. -/
  keccak_length : ∀ d, (keccak d).length = 32
  /-- Every element of the digest is a byte. -/
  keccak_byte : ∀ d b, b ∈ keccak d → b < 256
  /-- The function `btc_ecdsa.RecoverCompact` on the compact signature and the hash, followed
  by `SerializeUncompressed` on the recovered key. -/
  recoverCompact : List Nat → List Nat → Except String (List Nat)
  /-- A serialized uncompressed key has 65 bytes. -/
  recover_length : ∀ sig h pub, recoverCompact sig h = .ok pub → pub.length = 65

/-! ## Helpers of `main.go` -/

/-- The function `hex2Bytes`: the error of `hex.DecodeString` is dropped. -/
def hex2Bytes (str : List Nat) : List Nat := (hexDecodeString str).1

/-- The function `fromHex`: strips `0x`/`0X`, pads odd lengths with a leading `0`. -/
def fromHex (s : List Nat) : List Nat :=
  let s := if 2 ≤ s.length ∧ s.get? 0 = some 48 ∧ (s.get? 1 = some 120 ∨ s.get? 1 = some 88)
    then s.drop 2 else s
  let s := if s.length % 2 = 1 then 48 :: s else s
  hex2Bytes s

/-- The function `keccak256`: all arguments are written to one hasher. -/
def keccak256 (P : Primitives) (data : List (List Nat)) : List Nat := P.keccak data.flatten

/-- The function `getCreateAddr`. -/
def getCreateAddr (P : Primitives) (deployer : List Nat) : List Nat :=
  let data := [0xd6, 0x94] ++ deployer
  let data := data ++ [0x80]
  let hash := keccak256 P [data]
  goCopy (List.replicate 20 0) (hash.drop 12)

/-- The buffer `btcsig` of `sigToPub` (lines 181-183) at the call of `RecoverCompact`. -/
def sigToPubBuffer (sig : List Nat) : Except Panic (List Nat) :=
  match byteAt sig 64 with
  | .error e => .error e
  | .ok v =>
    let btcsig := List.replicate 65 0
    let btcsig := btcsig.set 0 (u8add v 27)
    copyInto btcsig 1 65 sig

/-- The function `sigToPub`: the serialized key or the error of the primitive. -/
def sigToPub (P : Primitives) (hash sig : List Nat) : Except Panic (Except String (List Nat)) :=
  match sigToPubBuffer sig with
  | .error e => .error e
  | .ok btcsig => .ok (P.recoverCompact btcsig hash)

/-- The buffer `sig` of `recoverPlain` (lines 158-165) at the call of `sigToPub`. -/
def recoverPlainSig (R S Vb : Nat) : Except Panic (List Nat) :=
  let V := (Vb % 2 ^ 64 + (2 ^ 64 - 27)) % 2 ^ 64 % 256
  let r := bigBytes R
  let s := bigBytes S
  let sig := List.replicate 65 0
  match copyInto sig (32 - (r.length : Int)) 32 r with
  | .error e => .error e
  | .ok sig =>
    match copyInto sig (64 - (s.length : Int)) 64 s with
    | .error e => .error e
    | .ok sig => .ok (sig.set 64 V)

/-- The function `recoverPlain`: a panic, or the pair `(address, err)` it returns. -/
def recoverPlain (P : Primitives) (sighash : List Nat) (R S Vb : Nat) :
    Except Panic (Except String (List Nat)) :=
  match recoverPlainSig R S Vb with
  | .error e => .error e
  | .ok sig =>
    match sigToPub P sighash sig with
    | .error e => .error e
    | .ok (.error err) => .ok (.error err)
    | .ok (.ok pub) =>
      let hash := keccak256 P [pub.drop 1]
      .ok (.ok (hash.drop 12))

/-! ## The globals and the two exported functions -/

/-- The package-level variables `inputHash`, `outputSuffix`, `maxRounds`, `preimage`. -/
structure Globals where
  inputHash : List Nat
  outputSuffix : List Nat
  maxRounds : Int
  /-- A `*big.Int`: `none` is the nil pointer. -/
  preimage : Option Nat
  deriving DecidableEq

/-- The globals at program start. -/
def Globals.zero : Globals := ⟨[], [], 0, none⟩

/-- The variables `bestNonce`, `bestAddr`, `bestScore` of `runHash`. -/
structure Best where
  /-- A `*big.Int`: `none` is the nil pointer. -/
  bestNonce : Option Nat
  bestAddr : List Nat
  bestScore : Nat
  deriving DecidableEq

/-- The value of `nonce` in round `i` (lines 75-77), `inputNonce` being already shifted. -/
def candidate (inputNonce i pre : Nat) : Nat := (inputNonce + i) ^^^ pre

/-- Lines 79-83: the address derived from `nonce`, with `r = 0x539` and `v = 27`. -/
def candidateAddr (P : Primitives) (g : Globals) (nonce : Nat) : Except Panic (List Nat) :=
  match recoverPlain P g.inputHash 0x539 nonce 27 with
  | .error e => .error e
  | .ok (.error err) => .error (.recoverFailed err)
  | .ok (.ok sender) => .ok (getCreateAddr P sender)

/-- Lines 75-101: nonce, address and score of round `i`. -/
def candidateScore (P : Primitives) (g : Globals) (inputNonce i : Nat) :
    Except Panic (Nat × List Nat × Nat) :=
  match g.preimage with
  | none => .error .nilDeref
  | some pre =>
    let nonce := candidate inputNonce i pre
    match candidateAddr P g nonce with
    | .error e => .error e
    | .ok addr =>
      match score addr g.outputSuffix with
      | .error e => .error e
      | .ok sc => .ok (nonce, addr, sc)

/-- One iteration of the outer loop of `runHash` (lines 75-107). -/
def runHashRound (P : Primitives) (g : Globals) (inputNonce : Nat) (st : Best) (i : Nat) :
    Except Panic Best :=
  match candidateScore P g inputNonce i with
  | .error e => .error e
  | .ok (nonce, addr, sc) =>
    if sc > st.bestScore then .ok ⟨some nonce, addr, sc⟩ else .ok st

/-- The variables of `runHash` after `k` iterations of the outer loop. -/
def runHashLoop (P : Primitives) (g : Globals) (inputNonce : Nat) : Nat → Except Panic Best
  | 0 => .ok ⟨none, [], 0⟩
  | k + 1 =>
    match runHashLoop P g inputNonce k with
    | .error e => .error e
    | .ok st => runHashRound P g inputNonce st k

/-- Lines 66-112 of `runHash`: the pair `(bestAddr, bestNonce)` that is formatted, for the
shifted starting nonce `inputNonce`; `bestNonce.Bytes()` panics on the nil pointer. -/
def runHashSearch (P : Primitives) (g : Globals) (inputNonce : Nat) :
    Except Panic (List Nat × Nat) :=
  match runHashLoop P g inputNonce g.maxRounds.toNat with
  | .error e => .error e
  | .ok st =>
    match st.bestNonce with
    | none => .error .nilDeref
    | some n => .ok (st.bestAddr, n)

/-- The function registered as `nmHash`: the returned string, as bytes. -/
def runHash (P : Primitives) (g : Globals) (args : List (List Nat)) :
    Except Panic (List Nat) :=
  match args with
  | [arg] =>
    let inputNonceBytes := fromHex arg
    let inputNonce := setBytes inputNonceBytes
    let inputNonce := inputNonce <<< 16
    match runHashSearch P g inputNonce with
    | .error e => .error e
    | .ok (bestAddr, bestNonce) =>
      .ok (ascii "0x" ++ hexEncode bestAddr ++ hexEncode (bigBytes bestNonce))
  | _ => .ok (ascii "Invalid no of arguments passed")

/-- The function registered as `nmSetConfig` on four string arguments and the integer
`rounds` of `args[2].Int()`: the globals afterwards. -/
def setConfig (P : Primitives) (a0 a1 : List Nat) (rounds : Int) (a3 : List Nat) : Globals :=
  let preimageBytes := fromHex a3
  let preimageHash := keccak256 P [preimageBytes]
  ⟨fromHex a0, fromHex a1, rounds, some (setBytes (preimageHash.take 16))⟩

/-- A `js.Value` argument, by what the program observes of it. -/
structure JsValue where
  /-- The result of `Value.String()`. -/
  string : List Nat
  /-- The result of `Value.Int()`; `none` when the value is not a number and the call
  panics. -/
  int : Option Int

/-- The closure registered as `nmSetConfig` (lines 31-50) on the globals `g`: the globals
afterwards and the returned value (`none` is `nil`). -/
def nmSetConfig (P : Primitives) (g : Globals) (args : List JsValue) :
    Except Panic (Globals × Option (List Nat)) :=
  match args with
  | [a0, a1, a2, a3] =>
    match a2.int with
    | none => .error .jsValueType
    | some rounds => .ok (setConfig P a0.string a1.string rounds a3.string, none)
  | _ => .ok (g, some (ascii "Invalid no of arguments passed"))

/-! ## Encodings in the words of the specification -/

/-- The sum of the high and low nibbles of all bytes of `bs`. -/
def nibbleSum (bs : List Nat) : Nat := (bs.map (fun b => b / 16 + b % 16)).sum

/-- The unsigned integer a byte sequence denotes in big-endian order: each byte has weight
`256 ^ m`, where `m` is the number of bytes after it. -/
def specBigEndian : List Nat → Nat
  | [] => 0
  | b :: rest => b * 256 ^ rest.length + specBigEndian rest

/-- The sixteen lowercase hexadecimal digits. -/
def hexAlphabet : List Nat := ascii "0123456789abcdef"

/-- The lowercase hexadecimal encoding of a byte sequence: per byte, the digit of the high
nibble then the digit of the low nibble. -/
def specHexLower (bs : List Nat) : List Nat :=
  bs.flatMap (fun b => [hexAlphabet.getD (b / 16) 0, hexAlphabet.getD (b % 16) 0])

/-! ## The signature layout in the words of the specification -/

/-- A fixed 32-byte big-endian field holding `n`, left-padded with zero bytes: the byte at
position `k` is the base-256 digit of weight `256 ^ (31 - k)`. -/
def specField32 (n : Nat) : List Nat :=
  (List.range 32).map (fun k => n / 256 ^ (31 - k) % 256)

/-- Arguments of `nmSetConfig` with a malformed digest string `12zz45`. -/
def malformedArgs : List JsValue :=
  [⟨ascii "12zz45", none⟩, ⟨ascii "0xdead", none⟩, ⟨ascii "3", some 3⟩, ⟨ascii "0x00", none⟩]

/-- A configuration whose target suffix has 21 bytes, with one round and seed 5. -/
def cfgLong : Globals := ⟨List.replicate 32 0, List.replicate 21 0, 1, some 5⟩

/-- The configuration `cfgThree` with the target suffix `0x0000` in place of `0xdead`. -/
def cfgThreeZero : Globals := ⟨List.replicate 32 0, [0x00, 0x00], 3, some 5⟩

/-! ## Concrete stand-ins for the primitives, used to run the program on examples -/

/-- A stand-in digest: 32 bytes mixed from the input by a polynomial rolling sum. -/
def toyKeccak (d : List Nat) : List Nat :=
  (List.range 32).map (fun k => (d.foldl (fun acc b => (acc * 31 + b + k) % 65521) 7) % 256)

/-- A stand-in recovery: rejects a compact signature whose last byte is 2 modulo 4, otherwise
returns a 65-byte key made of the marker 4 and the 64 signature bytes. -/
def toyRecover (btcsig _hash : List Nat) : Except String (List Nat) :=
  if btcsig.getLastD 0 % 4 = 2 then .error "invalid signature"
  else .ok (4 :: ((btcsig.drop 1) ++ List.replicate 64 0).take 64)

/-- The stand-in primitives. -/
def toy : Primitives where
  keccak := toyKeccak
  keccak_length := by intro d; simp [toyKeccak]
  keccak_byte := by
    intro d b hb
    simp only [toyKeccak, List.mem_map] at hb
    obtain ⟨k, _, rfl⟩ := hb
    exact Nat.mod_lt _ (by norm_num)
  recoverCompact := toyRecover
  recover_length := by
    intro sig h pub hp
    unfold toyRecover at hp
    split at hp
    · cases hp
    · cases hp
      simp

/-! ## Keccak-256 (legacy padding), the function behind `sha3.NewLegacyKeccak256` -/

/-- Rotation of a 64-bit lane to the left by `n < 64` bits. -/
def rotl64 (x n : Nat) : Nat := ((x <<< n) ||| (x >>> (64 - n))) % 2 ^ 64

/-- The 24 round constants of Keccak-f[1600]. -/
def keccakRC : List Nat :=
  [0x0000000000000001, 0x0000000000008082, 0x800000000000808A, 0x8000000080008000,
   0x000000000000808B, 0x0000000080000001, 0x8000000080008081, 0x8000000000008009,
   0x000000000000008A, 0x0000000000000088, 0x0000000080008009, 0x000000008000000A,
   0x000000008000808B, 0x800000000000008B, 0x8000000000008089, 0x8000000000008003,
   0x8000000000008002, 0x8000000000000080, 0x000000000000800A, 0x800000008000000A,
   0x8000000080008081, 0x8000000000008080, 0x0000000080000001, 0x8000000080008008]

/-- The rotation offsets of the step rho, for the lane at index `x + 5 * y`. -/
def keccakRot : List Nat :=
  [0, 1, 62, 28, 27, 36, 44, 6, 55, 20, 3, 10, 43, 25, 39, 41, 45, 15, 21, 8, 18, 2, 61, 56,
   14]

/-- One round of Keccak-f[1600] on 25 lanes: theta, rho and pi, chi, iota. -/
def keccakRound (a : List Nat) (rc : Nat) : List Nat :=
  let c := (List.range 5).map (fun x =>
    a.getD x 0 ^^^ a.getD (x + 5) 0 ^^^ a.getD (x + 10) 0 ^^^ a.getD (x + 15) 0
      ^^^ a.getD (x + 20) 0)
  let d := (List.range 5).map (fun x =>
    c.getD ((x + 4) % 5) 0 ^^^ rotl64 (c.getD ((x + 1) % 5) 0) 1)
  let a1 := (List.range 25).map (fun i => a.getD i 0 ^^^ d.getD (i % 5) 0)
  let b := (List.range 25).map (fun i =>
    let src := (i % 5 + 3 * (i / 5)) % 5 + 5 * (i % 5)
    rotl64 (a1.getD src 0) (keccakRot.getD src 0))
  let a2 := (List.range 25).map (fun i =>
    b.getD i 0 ^^^ (((2 ^ 64 - 1) ^^^ b.getD ((i % 5 + 1) % 5 + 5 * (i / 5)) 0)
      &&& b.getD ((i % 5 + 2) % 5 + 5 * (i / 5)) 0))
  a2.set 0 (a2.getD 0 0 ^^^ rc)

/-- The permutation Keccak-f[1600]: the 24 rounds. -/
def keccakF (a : List Nat) : List Nat := keccakRC.foldl keccakRound a

/-- The 64-bit lane `i` of a 136-byte block, read in little-endian order. -/
def keccakLane (block : List Nat) (i : Nat) : Nat :=
  (List.range 8).foldr (fun k acc => block.getD (8 * i + k) 0 % 256 + 256 * acc) 0

/-- Absorption of `blocks` blocks of 136 bytes into the state. -/
def keccakAbsorb : Nat → List Nat → List Nat → List Nat
  | 0, _, a => a
  | blocks + 1, msg, a =>
    let a1 := (List.range 25).map (fun i =>
      if i < 17 then a.getD i 0 ^^^ keccakLane msg i else a.getD i 0)
    keccakAbsorb blocks (msg.drop 136) (keccakF a1)

/-- The message padded to a multiple of 136 bytes: a byte `0x01`, zero bytes, and `0x80`
added to the last byte. -/
def keccakPad (msg : List Nat) : List Nat :=
  let zeros := 135 - msg.length % 136
  if zeros = 0 then msg ++ [0x81] else msg ++ [0x01] ++ List.replicate (zeros - 1) 0 ++ [0x80]

/-- The 32-byte Keccak-256 digest of `msg`. -/
def keccakLegacy256 (msg : List Nat) : List Nat :=
  let a := keccakAbsorb (msg.length / 136 + 1) (keccakPad msg) (List.replicate 25 0)
  (List.range 32).map (fun k => a.getD (k / 8) 0 / 256 ^ (k % 8) % 256)

/-- Keccak-256 together with a stand-in recovery that accepts every signature and returns
a 65-byte key made of the marker 4 and the 64 signature bytes. -/
def keccakPrimitives : Primitives where
  keccak := keccakLegacy256
  keccak_length := by intro d; simp [keccakLegacy256]
  keccak_byte := by
    intro d b hb
    simp only [keccakLegacy256, List.mem_map] at hb
    obtain ⟨k, _, rfl⟩ := hb
    exact Nat.mod_lt _ (by norm_num)
  recoverCompact := fun btcsig _ => .ok (4 :: ((btcsig.drop 1) ++ List.replicate 64 0).take 64)
  recover_length := by
    intro sig h pub hp
    cases hp
    simp

/-- The configuration of the end-to-end scenario: digest `0x00...001234567890123456`,
suffix `0xdead`, round budget 4096, preimage `0x00`. -/
def scenarioGlobals (P : Primitives) : Globals :=
  setConfig P
    (ascii "0x0000000000000000000000000000000000000000000000001234567890123456")
    (ascii "0xdead") 4096 (ascii "0x00")

/-- The secondary seed of the end-to-end scenario: the first 16 bytes of the hash of the
preimage `0x00`, as an integer. -/
def scenarioSeed (P : Primitives) : Nat :=
  setBytes ((keccak256 P [fromHex (ascii "0x00")]).take 16)

/-- A configuration with target suffix `0xdead`, three rounds and secondary seed 5. -/
def cfgThree : Globals := ⟨List.replicate 32 0, [0xde, 0xad], 3, some 5⟩

/-- A configuration with target suffix `0xdead`, eight rounds and secondary seed 5. -/
def cfgEight : Globals := ⟨List.replicate 32 0, [0xde, 0xad], 8, some 5⟩

/-- A configuration with the empty target suffix, one round and secondary seed 5. -/
def cfgEmpty : Globals := ⟨List.replicate 32 0, [], 1, some 5⟩

/-- The digest of the test program (`test/main.go`, line 30). -/
def testInputHash : List Nat :=
  fromHex (ascii "0x0000000000000000000000000000000000000000000000001234567890123456")

/-- The signature component `s` of the test program (`test/main.go`, line 28). -/
def testS : Nat := 0x5fe7f977e71dba2ea1a68e21057b0000

/-- A 20-byte address: the one derived from nonce 7 under the stand-in primitives. -/
def sampleAddr : List Nat :=
  [118, 233, 92, 207, 51, 166, 25, 125, 240, 99, 199, 58, 173, 17, 132, 247, 91, 206, 65, 180]

/-! ## Arithmetic of the scorer -/

theorem u8sub_self (x : Nat) : u8sub x x = 0 := by
  unfold u8sub
  omega

theorem scoreVal_self (a : Nat) : scoreVal a a = 30 := by
  simp [scoreVal, u8sub_self]
  decide

theorem scoreVal_eq_nibbleValue (a t : Nat) :
    scoreVal a t
      = u8add (nibbleValue (a / 16 % 256) (t / 16 % 256)) (nibbleValue (a % 16) (t % 16)) :=
  rfl

theorem nibbleValue_eq (a t : Nat) (ha : a < 16) (ht : t < 16) :
    nibbleValue a t = 15 + t - a := by
  unfold nibbleValue u8sub
  omega

theorem byteAt_natCast (xs : List Nat) (n : Nat) (h : n < xs.length) :
    byteAt xs (n : Int) = .ok (xs.get ⟨n, h⟩) := by
  unfold byteAt
  have h0 : ¬ ((n : Int) < 0) := by omega
  simp [h0, List.getElem?_eq_getElem h]

theorem byteAt_neg (xs : List Nat) (pos : Int) (h : pos < 0) :
    byteAt xs pos = .error .indexOutOfRange := by
  unfold byteAt
  simp [h]

theorem scoreLoop_exact (addr : List Nat) (L : Nat) (hlen : addr.length = 20) (hL : L ≤ 20) :
    ∀ k, k ≤ L → scoreLoop addr (addr.drop (20 - L)) k = .ok (30 * k) := by
  intro k
  induction k with
  | zero => intro _; rfl
  | succ k ih =>
    intro hk
    have hsl : (addr.drop (20 - L)).length = L := by simp [hlen]; omega
    have hpos : (20 : Int) - ((addr.drop (20 - L)).length : Int) + (k : Int)
        = ((20 - L + k : Nat) : Int) := by rw [hsl]; omega
    have h1 : 20 - L + k < addr.length := by omega
    have h2 : k < (addr.drop (20 - L)).length := by omega
    simp only [scoreLoop, ih (by omega), hpos, byteAt_natCast _ _ h1, byteAt_natCast _ _ h2]
    have hget : (addr.drop (20 - L)).get ⟨k, h2⟩ = addr.get ⟨20 - L + k, h1⟩ := by
      simp [List.getElem_drop]
    rw [hget, scoreVal_self]
    congr 1


/-! ## The search loop -/

theorem goCopy_length (dst src : List Nat) : (goCopy dst src).length = dst.length := by
  simp [goCopy]
  omega

theorem getCreateAddr_length (P : Primitives) (deployer : List Nat) :
    (getCreateAddr P deployer).length = 20 := by
  simp [getCreateAddr, goCopy_length]

theorem candidateAddr_length (P : Primitives) (g : Globals) (nonce : Nat) (a : List Nat)
    (h : candidateAddr P g nonce = .ok a) : a.length = 20 := by
  unfold candidateAddr at h
  split at h
  · cases h
  · cases h
  · cases h
    exact getCreateAddr_length P _

theorem candidateScore_ok (P : Primitives) (g : Globals) (n i c s : Nat) (a : List Nat)
    (h : candidateScore P g n i = .ok (c, a, s)) :
    ∃ pre, g.preimage = some pre ∧ c = candidate n i pre ∧ candidateAddr P g c = .ok a
      ∧ score a g.outputSuffix = .ok s := by
  unfold candidateScore at h
  split at h
  · cases h
  · rename_i pre hpre
    refine ⟨pre, hpre, ?_⟩
    dsimp only at h
    split at h
    · cases h
    · rename_i addr haddr
      split at h
      · cases h
      · rename_i sc hsc
        cases h
        exact ⟨rfl, haddr, hsc⟩

theorem runHashLoop_succ_ok (P : Primitives) (g : Globals) (n k : Nat) (st1 : Best)
    (h : runHashLoop P g n (k + 1) = .ok st1) :
    ∃ st c a s, runHashLoop P g n k = .ok st ∧ candidateScore P g n k = .ok (c, a, s)
      ∧ st1 = if s > st.bestScore then ⟨some c, a, s⟩ else st := by
  simp only [runHashLoop] at h
  split at h
  · cases h
  · rename_i st hst
    unfold runHashRound at h
    split at h
    · cases h
    · rename_i c a s hc
      refine ⟨st, c, a, s, hst, hc, ?_⟩
      split at h
      · rename_i hgt
        cases h
        simp [hgt]
      · rename_i hgt
        cases h
        simp [hgt]

theorem runHashLoop_inv (P : Primitives) (g : Globals) (n : Nat) :
    ∀ k st, runHashLoop P g n k = .ok st →
      (∀ j, j < k → ∃ c a s, candidateScore P g n j = .ok (c, a, s) ∧ s ≤ st.bestScore) ∧
      (st = ⟨none, [], 0⟩ ∨
        ∃ i c a s, i < k ∧ candidateScore P g n i = .ok (c, a, s) ∧ st = ⟨some c, a, s⟩
          ∧ 0 < s
          ∧ ∀ j, j < i → ∃ c1 a1 s1, candidateScore P g n j = .ok (c1, a1, s1) ∧ s1 < s) := by
  intro k
  induction k with
  | zero =>
    intro st h
    simp only [runHashLoop] at h
    cases h
    exact ⟨fun j hj => absurd hj (Nat.not_lt_zero j), Or.inl rfl⟩
  | succ k ih =>
    intro st1 h
    obtain ⟨st, c, a, s, hst, hc, hst1⟩ := runHashLoop_succ_ok P g n k st1 h
    obtain ⟨hall, hbest⟩ := ih st hst
    by_cases hgt : s > st.bestScore
    · simp only [hgt, if_true] at hst1
      subst hst1
      refine ⟨?_, Or.inr ⟨k, c, a, s, Nat.lt_succ_self k, hc, rfl, by omega, ?_⟩⟩
      · intro j hj
        rcases Nat.lt_succ_iff_lt_or_eq.mp hj with hlt | heq
        · obtain ⟨c1, a1, s1, h1, h2⟩ := hall j hlt
          exact ⟨c1, a1, s1, h1, by simp only; omega⟩
        · subst heq
          exact ⟨c, a, s, hc, Nat.le_refl s⟩
      · intro j hj
        obtain ⟨c1, a1, s1, h1, h2⟩ := hall j hj
        exact ⟨c1, a1, s1, h1, by omega⟩
    · simp only [hgt, if_false] at hst1
      subst hst1
      refine ⟨?_, ?_⟩
      · intro j hj
        rcases Nat.lt_succ_iff_lt_or_eq.mp hj with hlt | heq
        · exact hall j hlt
        · subst heq
          exact ⟨c, a, s, hc, by omega⟩
      · rcases hbest with h0 | ⟨i, c1, a1, s1, hi, h1, h2, h3, h4⟩
        · exact Or.inl h0
        · exact Or.inr ⟨i, c1, a1, s1, by omega, h1, h2, h3, h4⟩

theorem runHashLoop_ok_of_all (P : Primitives) (g : Globals) (n : Nat) :
    ∀ k, (∀ j, j < k → ∃ r, candidateScore P g n j = .ok r) →
      ∃ st, runHashLoop P g n k = .ok st := by
  intro k
  induction k with
  | zero => intro _; exact ⟨_, rfl⟩
  | succ k ih =>
    intro hall
    obtain ⟨st, hst⟩ := ih (fun j hj => hall j (by omega))
    obtain ⟨⟨c, a, s⟩, hr⟩ := hall k (Nat.lt_succ_self k)
    simp only [runHashLoop, hst, runHashRound, hr]
    by_cases hgt : s > st.bestScore
    · exact ⟨_, if_pos hgt⟩
    · exact ⟨_, if_neg hgt⟩

theorem runHashLoop_error_mono (P : Primitives) (g : Globals) (n k : Nat) (e : Panic)
    (h : runHashLoop P g n k = .error e) :
    ∀ m, k ≤ m → runHashLoop P g n m = .error e := by
  intro m hm
  induction m with
  | zero =>
    have : k = 0 := by omega
    subst this
    exact h
  | succ m ih =>
    rcases Nat.lt_succ_iff_lt_or_eq.mp (Nat.lt_succ_of_le hm) with hlt | heq
    · simp only [runHashLoop, ih (by omega)]
    · subst heq
      exact h

theorem runHashSearch_ok (P : Primitives) (g : Globals) (n : Nat) (addr : List Nat)
    (nonce : Nat) (h : runHashSearch P g n = .ok (addr, nonce)) :
    ∃ st, runHashLoop P g n g.maxRounds.toNat = .ok st ∧ st.bestNonce = some nonce
      ∧ st.bestAddr = addr := by
  unfold runHashSearch at h
  split at h
  · cases h
  · rename_i st hst
    split at h
    · cases h
    · rename_i c hc
      cases h
      exact ⟨st, hst, hc, rfl⟩

/-! ## The signature buffer -/

theorem bigLenAux_bound : ∀ fuel n, n ≤ fuel → n < 256 ^ bigLenAux fuel n := by
  intro fuel
  induction fuel with
  | zero =>
    intro n hn
    have : n = 0 := by omega
    subst this
    simp [bigLenAux]
  | succ f ih =>
    intro n hn
    by_cases h0 : n = 0
    · subst h0
      simp [bigLenAux]
    · simp only [bigLenAux, h0, if_false]
      have hq : n / 256 ≤ f := by omega
      have := ih (n / 256) hq
      rw [Nat.pow_succ]
      omega

theorem bigLenAux_le : ∀ fuel n m, n < 256 ^ m → bigLenAux fuel n ≤ m := by
  intro fuel
  induction fuel with
  | zero => intro n m _; simp [bigLenAux]
  | succ f ih =>
    intro n m hn
    by_cases h0 : n = 0
    · subst h0
      simp [bigLenAux]
    · simp only [bigLenAux, h0, if_false]
      cases m with
      | zero =>
        simp at hn
        omega
      | succ m =>
        rw [Nat.pow_succ] at hn
        have hq : n / 256 < 256 ^ m := by omega
        have := ih (n / 256) m hq
        omega

theorem bigLen_bound (n : Nat) : n < 256 ^ bigLen n :=
  bigLenAux_bound n n (Nat.le_refl n)

theorem bigLen_le (n m : Nat) (h : n < 256 ^ m) : bigLen n ≤ m :=
  bigLenAux_le n n m h

theorem bigBytes_length (n : Nat) : (bigBytes n).length = bigLen n := by
  simp [bigBytes]

theorem specField32_length (n : Nat) : (specField32 n).length = 32 := by
  simp [specField32]

theorem pad_bigBytes (n : Nat) (h : n < 256 ^ 32) :
    List.replicate (32 - bigLen n) 0 ++ bigBytes n = specField32 n := by
  have hle : bigLen n ≤ 32 := bigLen_le n 32 h
  have hb := bigLen_bound n
  apply List.ext_getElem
  · simp [bigBytes, specField32]
    omega
  · intro k h1 h2
    simp only [specField32, List.length_map, List.length_range] at h2
    by_cases hk : k < 32 - bigLen n
    · rw [List.getElem_append_left (by simpa using hk)]
      simp only [List.getElem_replicate, specField32, List.getElem_map, List.getElem_range]
      have hpow : 256 ^ bigLen n ≤ 256 ^ (31 - k) :=
        Nat.pow_le_pow_right (by norm_num) (by omega)
      have : n / 256 ^ (31 - k) = 0 := Nat.div_eq_of_lt (by omega)
      rw [this]
    · rw [List.getElem_append_right (by simpa using hk)]
      simp only [bigBytes, specField32, List.getElem_map, List.getElem_range,
        List.length_replicate]
      have : bigLen n - 1 - (k - (32 - bigLen n)) = 31 - k := by omega
      rw [this]

theorem copyInto_exact (buf src : List Nat) (lo hi : Nat) (h1 : lo ≤ hi)
    (h2 : hi ≤ buf.length) (h3 : src.length = hi - lo) :
    copyInto buf (lo : Int) (hi : Int) src = .ok (buf.take lo ++ src ++ buf.drop hi) := by
  unfold copyInto
  have hc : ¬ ((lo : Int) < 0 ∨ (hi : Int) < (lo : Int) ∨ (buf.length : Int) < (hi : Int)) := by
    omega
  rw [if_neg hc]
  have hg : goCopy ((buf.drop lo).take (hi - lo)) src = src := by
    have hl : ((buf.drop lo).take (hi - lo)).length = hi - lo := by
      simp
      omega
    unfold goCopy
    rw [hl, ← h3, List.take_length]
    have : List.drop src.length (List.take src.length (List.drop lo buf)) = [] := by
      apply List.drop_eq_nil_of_le
      simp
    rw [this, List.append_nil]
  simp only [Int.toNat_ofNat, hg]

theorem recoverPlainSig_fits (R S Vb : Nat) (hR : R < 2 ^ 256) (hS : S < 2 ^ 256) :
    recoverPlainSig R S Vb
      = .ok (specField32 R ++ specField32 S
          ++ [(Vb % 2 ^ 64 + (2 ^ 64 - 27)) % 2 ^ 64 % 256]) := by
  have hR1 : R < 256 ^ 32 := by norm_num at hR ⊢; exact hR
  have hS1 : S < 256 ^ 32 := by norm_num at hS ⊢; exact hS
  have hlr : bigLen R ≤ 32 := bigLen_le R 32 hR1
  have hls : bigLen S ≤ 32 := bigLen_le S 32 hS1
  have e1 : (32 : Int) - ((bigBytes R).length : Int) = ((32 - bigLen R : Nat) : Int) := by
    rw [bigBytes_length]; omega
  have e2 : (64 : Int) - ((bigBytes S).length : Int) = ((64 - bigLen S : Nat) : Int) := by
    rw [bigBytes_length]; omega
  have c1 : copyInto (List.replicate 65 0) ((32 - bigLen R : Nat) : Int) ((32 : Nat) : Int)
      (bigBytes R) = .ok (specField32 R ++ List.replicate 33 0) := by
    rw [copyInto_exact _ _ _ _ (by omega) (by simp) (by rw [bigBytes_length]; omega)]
    rw [← pad_bigBytes R hR1, List.take_replicate, List.drop_replicate,
      Nat.min_eq_left (by omega)]
  have c2 : copyInto (specField32 R ++ List.replicate 33 0) ((64 - bigLen S : Nat) : Int)
      ((64 : Nat) : Int) (bigBytes S) = .ok (specField32 R ++ specField32 S ++ [0]) := by
    rw [copyInto_exact _ _ _ _ (by omega) (by simp [specField32_length])
      (by rw [bigBytes_length]; omega)]
    rw [← pad_bigBytes S hS1]
    have hl := specField32_length R
    have t1 : List.take (64 - bigLen S) (specField32 R ++ List.replicate 33 0)
        = specField32 R ++ List.replicate (32 - bigLen S) 0 := by
      have hm : min (64 - bigLen S - 32) 33 = 32 - bigLen S := by omega
      rw [List.take_append_eq_append_take, hl, List.take_of_length_le (by omega),
        List.take_replicate, hm]
    have t2 : List.drop 64 (specField32 R ++ List.replicate 33 0) = [0] := by
      rw [List.drop_append_eq_append_drop, hl, List.drop_of_length_le (by omega)]
      simp
    rw [t1, t2]
    simp
  unfold recoverPlainSig
  simp only [e1, e2]
  have h32 : (32 : Int) = ((32 : Nat) : Int) := rfl
  have h64 : (64 : Int) = ((64 : Nat) : Int) := rfl
  rw [h32, c1]
  simp only
  rw [h64, c2]
  simp only
  have hlen : (specField32 R ++ specField32 S).length = 64 := by
    simp [specField32_length]
  rw [List.set_append_right _ _ (by omega), hlen]
  simp

theorem sigToPubBuffer_of (body : List Nat) (V : Nat) (hb : body.length = 64) :
    sigToPubBuffer (body ++ [V]) = .ok (u8add V 27 :: body) := by
  have h64 : (64 : Int) = ((64 : Nat) : Int) := rfl
  have hlt : 64 < (body ++ [V]).length := by simp [hb]
  have hget : (body ++ [V]).get ⟨64, hlt⟩ = V := by
    simp [List.getElem_append_right, hb]
  unfold sigToPubBuffer
  rw [h64, byteAt_natCast _ 64 hlt, hget]
  simp only
  have h1 : (1 : Int) = ((1 : Nat) : Int) := rfl
  have h65 : (65 : Int) = ((65 : Nat) : Int) := rfl
  unfold copyInto
  have hc : ¬ ((1 : Int) < 0 ∨ (65 : Int) < 1
      ∨ (((List.replicate 65 0).set 0 (u8add V 27)).length : Int) < 65) := by
    simp
  rw [if_neg hc]
  have hset : (List.replicate 65 0).set 0 (u8add V 27) = u8add V 27 :: List.replicate 64 0 := by
    rfl
  rw [hset]
  have e1 : (1 : Int).toNat = 1 := rfl
  have e65 : (65 : Int).toNat = 65 := rfl
  rw [e1, e65]
  simp [goCopy, hb]

theorem recoverPlain_of_buffer (P : Primitives) (sighash : List Nat) (R S Vb : Nat)
    (sig btcsig : List Nat) (h1 : recoverPlainSig R S Vb = .ok sig)
    (h2 : sigToPubBuffer sig = .ok btcsig) :
    recoverPlain P sighash R S Vb =
      match P.recoverCompact btcsig sighash with
      | .error err => .ok (.error err)
      | .ok pub => .ok (.ok ((keccak256 P [pub.drop 1]).drop 12)) := by
  simp only [recoverPlain, h1, sigToPub, h2]
  cases P.recoverCompact btcsig sighash <;> rfl

/-! ## Claims -/

/-- C1: for every 20-byte address and every `L ≤ 20`, the score against the suffix made of
the last `L` bytes of the address is exactly `30 * L`, and the score against the empty
suffix is 0. -/
theorem score_exact_suffix (addr : List Nat) (L : Nat) (hlen : addr.length = 20)
    (hL : L ≤ 20) :
    score addr (addr.drop (20 - L)) = .ok (30 * L) ∧ score addr [] = .ok 0 := by
  refine ⟨?_, rfl⟩
  have hsl : (addr.drop (20 - L)).length = L := by simp [hlen]; omega
  unfold score
  rw [hsl]
  exact scoreLoop_exact addr L hlen hL L (Nat.le_refl L)

/-- A concrete instance of C1: the sample address against its last three bytes. -/
theorem score_exact_suffix_witness :
    sampleAddr.length = 20 ∧ 3 ≤ 20 ∧
      (score sampleAddr (sampleAddr.drop (20 - 3)) = .ok (30 * 3)
        ∧ score sampleAddr [] = .ok 0) :=
  ⟨by decide, by decide, score_exact_suffix sampleAddr 3 (by decide) (by decide)⟩

/-- C2: the per-nibble value is computed in `uint8`, so the subtraction wraps modulo 256 and
not modulo 16: for address nibble 0 and target nibble 1 the code adds 16, above the 15 of an
exact match, where `15 - ((0 - 1) mod 16)` is 0; the byte `0x00` against `0x01` scores 31. -/
theorem nibbleValue_wraps_mod_256 :
    nibbleValue 0 1 = 16 ∧ nibbleValue 0 1 ≠ 15 - ((0 + 16 - 1) % 16)
      ∧ nibbleValue 1 1 = 15 ∧ scoreVal 0x00 0x01 = 31 := by
  decide

/-- C3: the score is not bounded by `30 * L`: the sample address against the two-byte
suffix `0xdead` scores 90, above `30 * 2`, and one byte can contribute up to 60. -/
theorem score_exceeds_thirty_per_byte :
    score sampleAddr [0xde, 0xad] = .ok 90 ∧ 30 * 2 < 90
      ∧ score (List.replicate 20 0) [0xff] = .ok 60 := by
  decide

/-- C4: when the search returns a pair `(bestAddress, bestNonce)`, the score of
`bestAddress` against the configured suffix is at least the score of the address derived
from every candidate `i` below the round budget of that call. -/
theorem search_best_score_ge (P : Primitives) (g : Globals) (n : Nat) (addr : List Nat)
    (nonce : Nat) (h : runHashSearch P g n = .ok (addr, nonce)) :
    ∃ best, score addr g.outputSuffix = .ok best ∧
      ∀ i, i < g.maxRounds.toNat →
        ∃ pre a s, g.preimage = some pre ∧ candidateAddr P g (candidate n i pre) = .ok a
          ∧ score a g.outputSuffix = .ok s ∧ s ≤ best := by
  obtain ⟨st, hst, hn, ha⟩ := runHashSearch_ok P g n addr nonce h
  obtain ⟨hall, hbest⟩ := runHashLoop_inv P g n _ st hst
  rcases hbest with h0 | ⟨i, c, a, s, _, hc, heq, _, _⟩
  · rw [h0] at hn
    cases hn
  · subst heq
    simp only at ha
    subst ha
    obtain ⟨_, _, _, _, hsc⟩ := candidateScore_ok P g n i c s a hc
    refine ⟨s, hsc, ?_⟩
    intro j hj
    obtain ⟨c1, a1, s1, h1, h2⟩ := hall j hj
    obtain ⟨pre, hpre, hc1, haddr, hs1⟩ := candidateScore_ok P g n j c1 s1 a1 h1
    subst hc1
    exact ⟨pre, a1, s1, hpre, haddr, hs1, h2⟩

/-- A concrete instance of C4: three rounds under the stand-in primitives. -/
theorem search_best_score_ge_witness :
    runHashSearch toy cfgThree 0 = .ok (sampleAddr, 7) ∧
      ∃ best, score sampleAddr cfgThree.outputSuffix = .ok best ∧
        ∀ i, i < cfgThree.maxRounds.toNat →
          ∃ pre a s, cfgThree.preimage = some pre
            ∧ candidateAddr toy cfgThree (candidate 0 i pre) = .ok a
            ∧ score a cfgThree.outputSuffix = .ok s ∧ s ≤ best :=
  ⟨by decide, search_best_score_ge toy cfgThree 0 sampleAddr 7 (by decide)⟩

/-- C5: a round replaces the retained candidate only by one of strictly greater score, so
when the search returns, the returned address and nonce are those of the candidate with the
smallest round index among the candidates of highest score: its score is at least every
score of the call and strictly greater than every score of an earlier round. -/
theorem search_returns_first_max (P : Primitives) (g : Globals) (n : Nat) (addr : List Nat)
    (nonce : Nat) (h : runHashSearch P g n = .ok (addr, nonce)) :
    (∀ st i st1, runHashRound P g n st i = .ok st1 → st1 = st ∨ st.bestScore < st1.bestScore) ∧
    ∃ i best, i < g.maxRounds.toNat ∧ candidateScore P g n i = .ok (nonce, addr, best) ∧
      (∀ j, j < g.maxRounds.toNat →
        ∃ c a s, candidateScore P g n j = .ok (c, a, s) ∧ s ≤ best) ∧
      (∀ j, j < i → ∃ c a s, candidateScore P g n j = .ok (c, a, s) ∧ s < best) := by
  constructor
  · intro st i st1 hr
    unfold runHashRound at hr
    split at hr
    · cases hr
    · split at hr
      · rename_i hgt
        cases hr
        exact Or.inr hgt
      · cases hr
        exact Or.inl rfl
  · obtain ⟨st, hst, hn, ha⟩ := runHashSearch_ok P g n addr nonce h
    obtain ⟨hall, hbest⟩ := runHashLoop_inv P g n _ st hst
    rcases hbest with h0 | ⟨i, c, a, s, hi, hc, heq, _, hlt⟩
    · rw [h0] at hn
      cases hn
    · subst heq
      simp only at ha hn hall
      subst ha
      cases hn
      exact ⟨i, s, hi, hc, hall, hlt⟩

/-- A concrete instance of C5: three rounds under the stand-in primitives. -/
theorem search_returns_first_max_witness :
    runHashSearch toy cfgThree 0 = .ok (sampleAddr, 7) ∧
    ((∀ st i st1, runHashRound toy cfgThree 0 st i = .ok st1 →
        st1 = st ∨ st.bestScore < st1.bestScore) ∧
      ∃ i best, i < cfgThree.maxRounds.toNat
        ∧ candidateScore toy cfgThree 0 i = .ok (7, sampleAddr, best) ∧
        (∀ j, j < cfgThree.maxRounds.toNat →
          ∃ c a s, candidateScore toy cfgThree 0 j = .ok (c, a, s) ∧ s ≤ best) ∧
        (∀ j, j < i → ∃ c a s, candidateScore toy cfgThree 0 j = .ok (c, a, s) ∧ s < best)) :=
  ⟨by decide, search_returns_first_max toy cfgThree 0 sampleAddr 7 (by decide)⟩

/-- C6 fails as stated: under the stand-in primitives and eight rounds, round 2 succeeds
with score 90, recovery fails in round 3, and the search neither skips that round nor
returns the best of the others: it panics with the recovery error. -/
theorem recovery_failure_not_skipped :
    candidateScore toy cfgEight 0 2 = .ok (7, sampleAddr, 90) ∧
      recoverPlain toy cfgEight.inputHash 0x539 (candidate 0 3 5) 27
        = .ok (.error "invalid signature") ∧
      runHashSearch toy cfgEight 0 = .error (.recoverFailed "invalid signature") := by
  decide

/-- C6, amended: if public-key recovery fails for a candidate `i` below the round budget and
the rounds before it ran to completion, the search aborts in round `i`: it panics with that
recovery error and returns no result. -/
theorem search_aborts_on_recovery_failure (P : Primitives) (g : Globals) (n i pre : Nat)
    (err : String) (hi : i < g.maxRounds.toNat) (hpre : g.preimage = some pre)
    (hprev : ∀ j, j < i → ∃ r, candidateScore P g n j = .ok r)
    (hfail : recoverPlain P g.inputHash 0x539 (candidate n i pre) 27 = .ok (.error err)) :
    runHashSearch P g n = .error (.recoverFailed err) := by
  obtain ⟨st, hst⟩ := runHashLoop_ok_of_all P g n i hprev
  have hstep : runHashLoop P g n (i + 1) = .error (.recoverFailed err) := by
    simp only [runHashLoop, hst, runHashRound, candidateScore, hpre, candidateAddr, hfail]
  have hend := runHashLoop_error_mono P g n (i + 1) _ hstep g.maxRounds.toNat (by omega)
  simp only [runHashSearch, hend]

/-- A concrete instance of the amended C6: recovery fails in round 3 of eight. -/
theorem search_aborts_on_recovery_failure_witness :
    (3 < cfgEight.maxRounds.toNat ∧ cfgEight.preimage = some 5
      ∧ (∀ j, j < 3 → ∃ r, candidateScore toy cfgEight 0 j = .ok r)
      ∧ recoverPlain toy cfgEight.inputHash 0x539 (candidate 0 3 5) 27
        = .ok (.error "invalid signature"))
    ∧ runHashSearch toy cfgEight 0 = .error (.recoverFailed "invalid signature") :=
  have hprev : ∀ j, j < 3 → ∃ r, candidateScore toy cfgEight 0 j = .ok r := by
    intro j hj
    interval_cases j
    · exact ⟨_, rfl⟩
    · exact ⟨_, rfl⟩
    · exact ⟨_, rfl⟩
  ⟨⟨by decide, rfl, hprev, by decide⟩,
    search_aborts_on_recovery_failure toy cfgEight 0 3 5 "invalid signature"
      (by decide) rfl hprev (by decide)⟩

/-- C7 fails as stated: with the empty suffix and one round, recovery succeeds and the score
is 0, yet the search returns no pair and panics on the nil `bestNonce`; and with eight
rounds, rounds 0 to 2 succeed recovery but the search returns no pair either. -/
theorem zero_score_search_returns_no_pair :
    candidateScore toy cfgEmpty 0 0 = .ok (5,
        [168, 27, 127, 242, 101, 201, 60, 175, 34, 134, 249, 108, 208, 67, 182, 26, 141, 0,
          100, 215], 0) ∧
      runHashSearch toy cfgEmpty 0 = .error .nilDeref ∧
      candidateScore toy cfgEight 0 0 = .ok (5,
        [168, 27, 127, 242, 101, 201, 60, 175, 34, 134, 249, 108, 208, 67, 182, 26, 141, 0,
          100, 215], 80) ∧
      ¬ ∃ r, runHashSearch toy cfgEight 0 = .ok r := by
  refine ⟨by decide, by decide, by decide, ?_⟩
  rintro ⟨r, hr⟩
  have h : runHashSearch toy cfgEight 0 = .error (.recoverFailed "invalid signature") := by
    decide
  rw [h] at hr
  cases hr

/-- C7, amended: the search has no result other than a pair or a panic; whenever every
candidate below the round budget runs to completion (recovery succeeds) and at least one
computed score is strictly positive, it returns a real pair of a 20-byte address and a
nonce. -/
theorem search_returns_pair_of_positive_score (P : Primitives) (g : Globals) (n i : Nat)
    (hi : i < g.maxRounds.toNat)
    (hall : ∀ j, j < g.maxRounds.toNat → ∃ r, candidateScore P g n j = .ok r)
    (hpos : ∃ c a s, candidateScore P g n i = .ok (c, a, s) ∧ 0 < s) :
    ∃ addr nonce, runHashSearch P g n = .ok (addr, nonce) ∧ addr.length = 20 := by
  obtain ⟨st, hst⟩ := runHashLoop_ok_of_all P g n _ hall
  obtain ⟨hle, hbest⟩ := runHashLoop_inv P g n _ st hst
  obtain ⟨c, a, s, hc, hs⟩ := hpos
  obtain ⟨c1, a1, s1, hc1, hs1⟩ := hle i hi
  rw [hc] at hc1
  cases hc1
  rcases hbest with h0 | ⟨k, c2, a2, s2, _, hc2, heq, _, _⟩
  · rw [h0] at hs1
    simp only at hs1
    omega
  · subst heq
    obtain ⟨_, _, _, haddr, _⟩ := candidateScore_ok P g n k c2 s2 a2 hc2
    refine ⟨a2, c2, ?_, candidateAddr_length P g c2 a2 haddr⟩
    simp only [runHashSearch, hst]

/-- A concrete instance of the amended C7: three rounds under the stand-in primitives. -/
theorem search_returns_pair_of_positive_score_witness :
    (2 < cfgThree.maxRounds.toNat
      ∧ (∀ j, j < cfgThree.maxRounds.toNat → ∃ r, candidateScore toy cfgThree 0 j = .ok r)
      ∧ ∃ c a s, candidateScore toy cfgThree 0 2 = .ok (c, a, s) ∧ 0 < s)
    ∧ ∃ addr nonce, runHashSearch toy cfgThree 0 = .ok (addr, nonce) ∧ addr.length = 20 :=
  have hall : ∀ j, j < cfgThree.maxRounds.toNat →
      ∃ r, candidateScore toy cfgThree 0 j = .ok r := by
    intro j hj
    have hj3 : j < 3 := hj
    interval_cases j
    · exact ⟨_, rfl⟩
    · exact ⟨_, rfl⟩
    · exact ⟨_, rfl⟩
  have hpos : ∃ c a s, candidateScore toy cfgThree 0 2 = .ok (c, a, s) ∧ 0 < s :=
    ⟨7, sampleAddr, 90, by decide, by decide⟩
  ⟨⟨by decide, hall, hpos⟩,
    search_returns_pair_of_positive_score toy cfgThree 0 2 (by decide) hall hpos⟩

/-- C8: the low 16 bits of the shifted base are reserved for the round counter: for round
indices below 65536 the candidates `((b << 16) + i) XOR seed` of two searches coincide
exactly when the bases and the round indices coincide, so searches with different starting
bases never examine the same nonce. -/
theorem candidate_eq_iff (b1 b2 seed i1 i2 : Nat) (h1 : i1 < 65536) (h2 : i2 < 65536) :
    (candidate (b1 <<< 16) i1 seed = candidate (b2 <<< 16) i2 seed ↔ b1 = b2 ∧ i1 = i2)
      ∧ (b1 ≠ b2 → candidate (b1 <<< 16) i1 seed ≠ candidate (b2 <<< 16) i2 seed) := by
  have key : candidate (b1 <<< 16) i1 seed = candidate (b2 <<< 16) i2 seed ↔
      b1 = b2 ∧ i1 = i2 := by
    unfold candidate
    rw [Nat.xor_left_inj, Nat.shiftLeft_eq, Nat.shiftLeft_eq]
    constructor
    · intro h
      omega
    · rintro ⟨rfl, rfl⟩
      rfl
  exact ⟨key, fun hne heq => hne (key.mp heq).1⟩

/-- A concrete instance of C8: bases 3 and 4, seed 5, round indices 7 and 65535. -/
theorem candidate_eq_iff_witness :
    (7 < 65536 ∧ 65535 < 65536) ∧
      ((candidate (3 <<< 16) 7 5 = candidate (4 <<< 16) 65535 5 ↔ 3 = 4 ∧ 7 = 65535)
        ∧ (3 ≠ 4 → candidate (3 <<< 16) 7 5 ≠ candidate (4 <<< 16) 65535 5)) :=
  ⟨⟨by decide, by decide⟩, candidate_eq_iff 3 4 5 7 65535 (by decide) (by decide)⟩

/-- C9: an `s` of 33 bytes is not rejected. For `r = 0x539`, `s = 2^256 + 1`, `v = 27` the
buffer `sig` is built without any failure: the top byte of `s` overwrites the last byte of
the `r` field (`0x0539` becomes `0x0501`) and the `s` field holds `s mod 2^256`; whatever
the primitives, `recoverPlain` then returns what recovery on that buffer gives, a sender
under the stand-in primitives. An oversized `r` does stop the function, by a slice-bounds
panic. -/
theorem recoverPlain_oversized_s_accepted :
    recoverPlainSig 0x539 (2 ^ 256 + 1) 27
      = .ok (List.replicate 30 0 ++ [5, 1] ++ List.replicate 31 0 ++ [1, 0]) ∧
    (∀ (P : Primitives) (h : List Nat), recoverPlain P h 0x539 (2 ^ 256 + 1) 27 =
      match P.recoverCompact
          (27 :: (List.replicate 30 0 ++ [5, 1] ++ List.replicate 31 0 ++ [1])) h with
      | .error err => .ok (.error err)
      | .ok pub => .ok (.ok ((keccak256 P [pub.drop 1]).drop 12))) ∧
    (∃ sender, recoverPlain toy testInputHash 0x539 (2 ^ 256 + 1) 27 = .ok (.ok sender)) ∧
    recoverPlainSig (2 ^ 256) 1 27 = .error .sliceBounds := by
  refine ⟨by decide, ?_, ⟨_, rfl⟩, by decide⟩
  intro P h
  exact recoverPlain_of_buffer P h 0x539 (2 ^ 256 + 1) 27
    (List.replicate 30 0 ++ [5, 1] ++ List.replicate 31 0 ++ [1, 0])
    (27 :: (List.replicate 30 0 ++ [5, 1] ++ List.replicate 31 0 ++ [1]))
    (by decide) (by decide)

/-- C10: for `r, s < 2^256` and `v` in `{27, 28}` the buffer handed to the recovery
primitive is `[v]`, then `r` as a 32-byte big-endian field left-padded with zeros, then `s`
as such a field: `sigToPub` builds exactly that buffer from the `sig` of `recoverPlain`,
and `recoverPlain` returns what the primitive gives on it. -/
theorem recoverPlain_buffer_layout (P : Primitives) (sighash : List Nat) (r s v : Nat)
    (hr : r < 2 ^ 256) (hs : s < 2 ^ 256) (hv : v = 27 ∨ v = 28) :
    (∃ sig, recoverPlainSig r s v = .ok sig
      ∧ sigToPubBuffer sig = .ok ([v] ++ specField32 r ++ specField32 s)) ∧
    recoverPlain P sighash r s v =
      match P.recoverCompact ([v] ++ specField32 r ++ specField32 s) sighash with
      | .error err => .ok (.error err)
      | .ok pub => .ok (.ok ((keccak256 P [pub.drop 1]).drop 12)) := by
  have h1 := recoverPlainSig_fits r s v hr hs
  have hV : u8add ((v % 2 ^ 64 + (2 ^ 64 - 27)) % 2 ^ 64 % 256) 27 = v := by
    rcases hv with rfl | rfl <;> decide
  have h2 : sigToPubBuffer (specField32 r ++ specField32 s
      ++ [(v % 2 ^ 64 + (2 ^ 64 - 27)) % 2 ^ 64 % 256])
      = .ok ([v] ++ specField32 r ++ specField32 s) := by
    rw [sigToPubBuffer_of _ _ (by simp [specField32_length]), hV]
    rfl
  exact ⟨⟨_, h1, h2⟩, recoverPlain_of_buffer P sighash r s v _ _ h1 h2⟩

/-- A concrete instance of C10: the values of the test program, `r = 0x539`,
`s = 0x5fe7f977e71dba2ea1a68e21057b0000`, `v = 27`, with the buffer written out. -/
theorem recoverPlain_buffer_layout_witness :
    (0x539 < 2 ^ 256 ∧ testS < 2 ^ 256 ∧ (27 = 27 ∨ 27 = 28)) ∧
    [27] ++ specField32 0x539 ++ specField32 testS
      = 27 :: (List.replicate 30 0 ++ [0x05, 0x39] ++ List.replicate 16 0
          ++ [0x5f, 0xe7, 0xf9, 0x77, 0xe7, 0x1d, 0xba, 0x2e, 0xa1, 0xa6, 0x8e, 0x21, 0x05,
            0x7b, 0x00, 0x00]) ∧
    ((∃ sig, recoverPlainSig 0x539 testS 27 = .ok sig
      ∧ sigToPubBuffer sig = .ok ([27] ++ specField32 0x539 ++ specField32 testS)) ∧
    recoverPlain toy testInputHash 0x539 testS 27 =
      match toy.recoverCompact ([27] ++ specField32 0x539 ++ specField32 testS)
          testInputHash with
      | .error err => .ok (.error err)
      | .ok pub => .ok (.ok ((keccak256 toy [pub.drop 1]).drop 12))) :=
  ⟨⟨by decide, by decide, Or.inl rfl⟩, by decide,
    recoverPlain_buffer_layout toy testInputHash 0x539 testS 27 (by decide) (by decide)
      (Or.inl rfl)⟩

/-! ## The hex codec -/

theorem hexEncode_cons (b : Nat) (rest : List Nat) :
    hexEncode (b :: rest) = hexDigit (b / 16 % 16) :: hexDigit (b % 16) :: hexEncode rest := by
  simp [hexEncode]

theorem hexEncode_append (xs ys : List Nat) :
    hexEncode (xs ++ ys) = hexEncode xs ++ hexEncode ys := by
  simp [hexEncode]

theorem hexEncode_length (xs : List Nat) : (hexEncode xs).length = 2 * xs.length := by
  induction xs with
  | nil => rfl
  | cons b rest ih =>
    rw [hexEncode_cons]
    simp only [List.length_cons, ih]
    omega

theorem fromHexChar_hexDigit : ∀ d, d < 16 → fromHexChar (hexDigit d) = some d := by
  decide

theorem hexDigit_not_x : ∀ d, d < 16 → hexDigit d ≠ 120 ∧ hexDigit d ≠ 88 := by
  decide

theorem hexDecodeString_hexEncode (x : List Nat) (hx : ∀ b ∈ x, b < 256) :
    hexDecodeString (hexEncode x) = (x, false) := by
  induction x with
  | nil => rfl
  | cons b rest ih =>
    have hb : b < 256 := hx b (List.mem_cons_self b rest)
    have hrest := ih (fun c hc => hx c (List.mem_cons_of_mem b hc))
    rw [hexEncode_cons]
    simp only [hexDecodeString, fromHexChar_hexDigit _ (Nat.mod_lt _ (by norm_num : 16 > 0)),
      hrest]
    have : b / 16 % 16 * 16 + b % 16 = b := by omega
    rw [this]

theorem hexEncode_second_not_x (x : List Nat) :
    (hexEncode x).get? 1 ≠ some 120 ∧ (hexEncode x).get? 1 ≠ some 88 := by
  cases x with
  | nil => simp [hexEncode]
  | cons b rest =>
    rw [hexEncode_cons]
    have h := hexDigit_not_x (b % 16) (Nat.mod_lt _ (by norm_num))
    simp only [List.get?_cons_succ, List.get?_cons_zero, ne_eq, Option.some.injEq]
    exact h

theorem fromHex_hexEncode (x : List Nat) (hx : ∀ b ∈ x, b < 256) :
    fromHex (hexEncode x) = x := by
  have h2 := hexEncode_second_not_x x
  have hlen : (hexEncode x).length % 2 = 0 := by rw [hexEncode_length]; omega
  unfold fromHex
  have hc : ¬ (2 ≤ (hexEncode x).length ∧ (hexEncode x).get? 0 = some 48 ∧
      ((hexEncode x).get? 1 = some 120 ∨ (hexEncode x).get? 1 = some 88)) := by
    rintro ⟨_, _, h | h⟩
    · exact h2.1 h
    · exact h2.2 h
  simp only [hc, if_false, hlen]
  simp [hex2Bytes, hexDecodeString_hexEncode x hx]

theorem fromHex_0x_hexEncode (x : List Nat) (hx : ∀ b ∈ x, b < 256) (c : Nat)
    (hc : c = 120 ∨ c = 88) : fromHex (48 :: c :: hexEncode x) = x := by
  have hlen : (hexEncode x).length % 2 = 0 := by rw [hexEncode_length]; omega
  unfold fromHex
  have hcond : 2 ≤ (48 :: c :: hexEncode x).length ∧ (48 :: c :: hexEncode x).get? 0 = some 48 ∧
      ((48 :: c :: hexEncode x).get? 1 = some 120 ∨ (48 :: c :: hexEncode x).get? 1 = some 88) := by
    refine ⟨by simp, by simp, ?_⟩
    rcases hc with rfl | rfl
    · exact Or.inl (by simp)
    · exact Or.inr (by simp)
  simp only [hcond, and_self, if_true, List.drop_succ_cons, List.drop_zero, hlen]
  simp [hex2Bytes, hexDecodeString_hexEncode x hx]

theorem goCopy_zeros_of_length (src : List Nat) (h : src.length = 20) :
    goCopy (List.replicate 20 0) src = src := by
  unfold goCopy
  rw [List.length_replicate, List.take_of_length_le (by omega), h, List.drop_replicate]
  simp

/-- C11: for a 20-byte sender, `getCreateAddr` hashes exactly the 23-byte buffer
`[0xd6, 0x94] ++ sender ++ [0x80]` and returns bytes 12 to 31 of the 32-byte hash: its
result has exactly 20 bytes and is determined by the sender address. -/
theorem getCreateAddr_hashes_buffer (P : Primitives) (sender : List Nat)
    (hlen : sender.length = 20) :
    ([0xd6, 0x94] ++ sender ++ [0x80]).length = 23 ∧
    (keccak256 P [[0xd6, 0x94] ++ sender ++ [0x80]]).length = 32 ∧
    getCreateAddr P sender
      = (List.range 20).map
          (fun k => (keccak256 P [[0xd6, 0x94] ++ sender ++ [0x80]]).getD (12 + k) 0) ∧
    (getCreateAddr P sender).length = 20 := by
  have hk : (keccak256 P [[0xd6, 0x94] ++ sender ++ [0x80]]).length = 32 :=
    P.keccak_length _
  refine ⟨by simp [hlen], hk, ?_, getCreateAddr_length P sender⟩
  have hd : ((keccak256 P [[0xd6, 0x94] ++ sender ++ [0x80]]).drop 12).length = 20 := by
    rw [List.length_drop, hk]
  have hg : getCreateAddr P sender
      = goCopy (List.replicate 20 0)
          ((keccak256 P [[0xd6, 0x94] ++ sender ++ [0x80]]).drop 12) := rfl
  rw [hg, goCopy_zeros_of_length _ hd]
  apply List.ext_getElem
  · rw [hd]
    simp
  · intro k h1 h2
    rw [hd] at h1
    rw [List.getElem_drop, List.getElem_map, List.getElem_range,
      List.getD_eq_getElem _ _ (by omega)]

/-- A concrete instance of C11: the sample address as sender, under the stand-in digest. -/
theorem getCreateAddr_hashes_buffer_witness :
    sampleAddr.length = 20 ∧
    (([0xd6, 0x94] ++ sampleAddr ++ [0x80]).length = 23 ∧
    (keccak256 toy [[0xd6, 0x94] ++ sampleAddr ++ [0x80]]).length = 32 ∧
    getCreateAddr toy sampleAddr
      = (List.range 20).map
          (fun k => (keccak256 toy [[0xd6, 0x94] ++ sampleAddr ++ [0x80]]).getD (12 + k) 0) ∧
    (getCreateAddr toy sampleAddr).length = 20) :=
  ⟨by decide, getCreateAddr_hashes_buffer toy sampleAddr (by decide)⟩

/-- C14: for every byte sequence `x`, `fromHex` of the lowercase hex encoding of `x` is
`x`, with or without a leading `0x` or `0X`; and when the encoding starts with the digit
`0`, `fromHex` of the encoding without that digit, a string of odd length, is `x` too. -/
theorem fromHex_roundtrip (x : List Nat) (hx : ∀ b ∈ x, b < 256) :
    fromHex (hexEncode x) = x ∧
    fromHex (ascii "0x" ++ hexEncode x) = x ∧
    fromHex (ascii "0X" ++ hexEncode x) = x ∧
    (∀ rest, hexEncode x = 48 :: rest → rest.length % 2 = 1 ∧ fromHex rest = x) := by
  refine ⟨fromHex_hexEncode x hx, fromHex_0x_hexEncode x hx 120 (Or.inl rfl),
    fromHex_0x_hexEncode x hx 88 (Or.inr rfl), ?_⟩
  intro rest hrest
  have hlen : rest.length % 2 = 1 := by
    have := congrArg List.length hrest
    rw [hexEncode_length, List.length_cons] at this
    omega
  refine ⟨hlen, ?_⟩
  have h2 : rest.get? 1 ≠ some 120 ∧ rest.get? 1 ≠ some 88 := by
    cases x with
    | nil => simp [hexEncode] at hrest
    | cons b tl =>
      rw [hexEncode_cons] at hrest
      injection hrest with _ hr
      subst hr
      cases tl with
      | nil => simp [hexEncode]
      | cons b2 tl2 =>
        rw [hexEncode_cons]
        have h := hexDigit_not_x (b2 / 16 % 16) (Nat.mod_lt _ (by norm_num))
        simp only [List.get?_cons_succ, List.get?_cons_zero, ne_eq, Option.some.injEq]
        exact h
  unfold fromHex
  have hc : ¬ (2 ≤ rest.length ∧ rest.get? 0 = some 48 ∧
      (rest.get? 1 = some 120 ∨ rest.get? 1 = some 88)) := by
    rintro ⟨_, _, h | h⟩
    · exact h2.1 h
    · exact h2.2 h
  simp only [hc, if_false, hlen, if_true, ← hrest]
  simp [hex2Bytes, hexDecodeString_hexEncode x hx]

/-- A concrete instance of C14: the bytes `0x05 0x39`, whose encoding `0539` starts with
the digit `0`. -/
theorem fromHex_roundtrip_witness :
    (∀ b ∈ [0x05, 0x39], b < 256) ∧
    (fromHex (hexEncode [0x05, 0x39]) = [0x05, 0x39] ∧
    fromHex (ascii "0x" ++ hexEncode [0x05, 0x39]) = [0x05, 0x39] ∧
    fromHex (ascii "0X" ++ hexEncode [0x05, 0x39]) = [0x05, 0x39] ∧
    (∀ rest, hexEncode [0x05, 0x39] = 48 :: rest →
      rest.length % 2 = 1 ∧ fromHex rest = [0x05, 0x39])) :=
  ⟨by decide, fromHex_roundtrip [0x05, 0x39] (by decide)⟩

/-! ## Configuration -/

theorem setBytes_foldl (bs : List Nat) (hbs : ∀ b ∈ bs, b < 256) :
    ∀ acc, bs.foldl (fun acc b => acc * 256 + b % 256) acc
      = acc * 256 ^ bs.length + specBigEndian bs := by
  induction bs with
  | nil => intro acc; simp [specBigEndian]
  | cons b rest ih =>
    intro acc
    have hb : b < 256 := hbs b (List.mem_cons_self b rest)
    rw [List.foldl_cons, ih (fun c hc => hbs c (List.mem_cons_of_mem b hc))]
    simp only [specBigEndian, List.length_cons, Nat.pow_succ, Nat.mod_eq_of_lt hb]
    ring

theorem setBytes_eq_specBigEndian (bs : List Nat) (hbs : ∀ b ∈ bs, b < 256) :
    setBytes bs = specBigEndian bs := by
  unfold setBytes
  rw [setBytes_foldl bs hbs 0]
  simp

theorem specBigEndian_lt (bs : List Nat) (hbs : ∀ b ∈ bs, b < 256) :
    specBigEndian bs < 256 ^ bs.length := by
  induction bs with
  | nil => simp [specBigEndian]
  | cons b rest ih =>
    have hb : b < 256 := hbs b (List.mem_cons_self b rest)
    have hr := ih (fun c hc => hbs c (List.mem_cons_of_mem b hc))
    simp only [specBigEndian, List.length_cons, Nat.pow_succ]
    have : b * 256 ^ rest.length ≤ 255 * 256 ^ rest.length :=
      Nat.mul_le_mul_right _ (by omega)
    omega

theorem hexDecodeString_malformed (bs : List Nat) (hbs : ∀ b ∈ bs, b < 256) (c : Nat)
    (hc : fromHexChar c = none) (rest : List Nat) :
    hexDecodeString (hexEncode bs ++ c :: rest) = (bs, true) := by
  induction bs with
  | nil =>
    cases rest with
    | nil => rfl
    | cons q r => simp [hexEncode, hexDecodeString, hc]
  | cons b tl ih =>
    have hb : b < 256 := hbs b (List.mem_cons_self b tl)
    have htl := ih (fun d hd => hbs d (List.mem_cons_of_mem b hd))
    rw [hexEncode_cons]
    show hexDecodeString
      (hexDigit (b / 16 % 16) :: hexDigit (b % 16) :: (hexEncode tl ++ c :: rest)) = _
    simp only [hexDecodeString, fromHexChar_hexDigit _ (Nat.mod_lt _ (by norm_num : 16 > 0)),
      htl]
    have : b / 16 % 16 * 16 + b % 16 = b := by omega
    rw [this]

theorem fromHex_malformed (bs : List Nat) (hbs : ∀ b ∈ bs, b < 256) (c : Nat)
    (hc : fromHexChar c = none) (rest : List Nat) (hrest : rest.length % 2 = 1) :
    fromHex (hexEncode bs ++ c :: rest) = bs := by
  have hlen : (hexEncode bs ++ c :: rest).length % 2 = 0 := by
    rw [List.length_append, hexEncode_length, List.length_cons]
    omega
  have hcond : ¬ (2 ≤ (hexEncode bs ++ c :: rest).length ∧
      (hexEncode bs ++ c :: rest).get? 0 = some 48 ∧
      ((hexEncode bs ++ c :: rest).get? 1 = some 120 ∨
        (hexEncode bs ++ c :: rest).get? 1 = some 88)) := by
    cases bs with
    | nil =>
      rintro ⟨_, h0, _⟩
      simp only [hexEncode, List.flatMap_nil, List.nil_append, List.get?_cons_zero,
        Option.some.injEq] at h0
      subst h0
      revert hc
      decide
    | cons b tl =>
      rw [hexEncode_cons]
      have h := hexDigit_not_x (b % 16) (Nat.mod_lt _ (by norm_num))
      rintro ⟨_, _, h1 | h1⟩
      · simp only [List.cons_append, List.get?_cons_succ, List.get?_cons_zero,
          Option.some.injEq] at h1
        exact h.1 h1
      · simp only [List.cons_append, List.get?_cons_succ, List.get?_cons_zero,
          Option.some.injEq] at h1
        exact h.2 h1
  unfold fromHex
  simp only [hcond, if_false, hlen]
  simp [hex2Bytes, hexDecodeString_malformed bs hbs c hc rest]

/-- C13 fails as stated: called on a configuration with a 32-byte digest, `nmSetConfig`
with the malformed digest string `12zz45` reports no error and replaces the configuration:
the stored digest becomes the single byte `0x12`. -/
theorem malformed_hex_changes_configuration :
    ∃ g1, nmSetConfig toy cfgThree malformedArgs = .ok (g1, none)
      ∧ g1.inputHash = [0x12] ∧ g1.outputSuffix = [0xde, 0xad] ∧ g1 ≠ cfgThree :=
  ⟨setConfig toy (ascii "12zz45") (ascii "0xdead") 3 (ascii "0x00"), rfl, by decide,
    by decide, by decide⟩

/-- C13, amended: `nmSetConfig` called with a malformed digest string does not fail and
returns no error: the error of the hex decoder is dropped, a digest string made of the hex
digits of `bs` followed by a character that is no hex digit (the whole of even length) is
stored as `bs`, and suffix, round budget and secondary seed are replaced as for well-formed
arguments, whatever the configuration was. -/
theorem nmSetConfig_malformed_hex (P : Primitives) (g : Globals) (bs : List Nat)
    (hbs : ∀ b ∈ bs, b < 256) (c : Nat) (hc : fromHexChar c = none) (rest : List Nat)
    (hrest : rest.length % 2 = 1) (a0 a1 a2 a3 : JsValue) (n : Int)
    (h0 : a0.string = hexEncode bs ++ c :: rest) (h2 : a2.int = some n) :
    nmSetConfig P g [a0, a1, a2, a3]
      = .ok (⟨bs, fromHex a1.string, n,
          some (setBytes ((keccak256 P [fromHex a3.string]).take 16))⟩, none) := by
  simp only [nmSetConfig, h2, setConfig, h0, fromHex_malformed bs hbs c hc rest hrest]

/-- A concrete instance of the amended C13: the digest string `12zz45`. -/
theorem nmSetConfig_malformed_hex_witness :
    ((∀ b ∈ [0x12], b < 256) ∧ fromHexChar 122 = none ∧ (ascii "z45").length % 2 = 1
      ∧ (⟨ascii "12zz45", none⟩ : JsValue).string = hexEncode [0x12] ++ 122 :: ascii "z45"
      ∧ (⟨ascii "3", some 3⟩ : JsValue).int = some 3) ∧
    nmSetConfig toy cfgThree malformedArgs
      = .ok (⟨[0x12], fromHex (ascii "0xdead"), 3,
          some (setBytes ((keccak256 toy [fromHex (ascii "0x00")]).take 16))⟩, none) :=
  ⟨⟨by decide, by decide, by decide, by decide, rfl⟩,
    nmSetConfig_malformed_hex toy cfgThree [0x12] (by decide) 122 (by decide) (ascii "z45")
      (by decide) ⟨ascii "12zz45", none⟩ ⟨ascii "0xdead", none⟩ ⟨ascii "3", some 3⟩
      ⟨ascii "0x00", none⟩ 3 (by decide) rfl⟩

/-- C15: after `nmSetConfig` with four arguments the configuration is exactly the decoded
digest, the decoded suffix, the round budget and the big-endian unsigned integer of the
first 16 bytes of the hash of the decoded preimage, whatever the previous configuration;
hence the secondary seed is below `2^128`, and a second call with the same arguments leaves
the state of the first. -/
theorem nmSetConfig_replaces_all (P : Primitives) (g : Globals) (a0 a1 a2 a3 : JsValue)
    (n : Int) (h2 : a2.int = some n) :
    ∃ seed, seed = specBigEndian ((keccak256 P [fromHex a3.string]).take 16) ∧ seed < 2 ^ 128 ∧
      nmSetConfig P g [a0, a1, a2, a3]
        = .ok (⟨fromHex a0.string, fromHex a1.string, n, some seed⟩, none) ∧
      (∀ g2, nmSetConfig P g2 [a0, a1, a2, a3] = nmSetConfig P g [a0, a1, a2, a3]) ∧
      nmSetConfig P ⟨fromHex a0.string, fromHex a1.string, n, some seed⟩ [a0, a1, a2, a3]
        = .ok (⟨fromHex a0.string, fromHex a1.string, n, some seed⟩, none) := by
  have hbytes : ∀ b ∈ (keccak256 P [fromHex a3.string]).take 16, b < 256 := by
    intro b hb
    exact P.keccak_byte _ b (List.mem_of_mem_take hb)
  have hlen : ((keccak256 P [fromHex a3.string]).take 16).length = 16 := by
    rw [List.length_take, show (keccak256 P [fromHex a3.string]).length = 32 from
      P.keccak_length _]
    rfl
  have hlt := specBigEndian_lt _ hbytes
  rw [hlen] at hlt
  have hcall : ∀ g2, nmSetConfig P g2 [a0, a1, a2, a3]
      = .ok (⟨fromHex a0.string, fromHex a1.string, n,
          some (specBigEndian ((keccak256 P [fromHex a3.string]).take 16))⟩, none) := by
    intro g2
    simp only [nmSetConfig, h2, setConfig, setBytes_eq_specBigEndian _ hbytes]
  refine ⟨_, rfl, ?_, hcall g, ?_, hcall _⟩
  · calc specBigEndian ((keccak256 P [fromHex a3.string]).take 16) < 256 ^ 16 := hlt
      _ = 2 ^ 128 := by norm_num
  · intro g2
    rw [hcall g2, hcall g]

/-- A concrete instance of C15: the arguments `0x1234`, `0xdead`, 4096, `0x00` under
Keccak-256, called on the configuration at program start. -/
theorem nmSetConfig_replaces_all_witness :
    (⟨ascii "4096", some 4096⟩ : JsValue).int = some 4096 ∧
    ∃ seed, seed = specBigEndian
        ((keccak256 keccakPrimitives [fromHex (JsValue.string ⟨ascii "0x00", none⟩)]).take 16)
      ∧ seed < 2 ^ 128 ∧
      nmSetConfig keccakPrimitives Globals.zero
          [⟨ascii "0x1234", none⟩, ⟨ascii "0xdead", none⟩, ⟨ascii "4096", some 4096⟩,
            ⟨ascii "0x00", none⟩]
        = .ok (⟨fromHex (JsValue.string ⟨ascii "0x1234", none⟩),
            fromHex (JsValue.string ⟨ascii "0xdead", none⟩), 4096, some seed⟩, none) ∧
      (∀ g2, nmSetConfig keccakPrimitives g2
          [⟨ascii "0x1234", none⟩, ⟨ascii "0xdead", none⟩, ⟨ascii "4096", some 4096⟩,
            ⟨ascii "0x00", none⟩]
        = nmSetConfig keccakPrimitives Globals.zero
          [⟨ascii "0x1234", none⟩, ⟨ascii "0xdead", none⟩, ⟨ascii "4096", some 4096⟩,
            ⟨ascii "0x00", none⟩]) ∧
      nmSetConfig keccakPrimitives
          ⟨fromHex (JsValue.string ⟨ascii "0x1234", none⟩),
            fromHex (JsValue.string ⟨ascii "0xdead", none⟩), 4096, some seed⟩
          [⟨ascii "0x1234", none⟩, ⟨ascii "0xdead", none⟩, ⟨ascii "4096", some 4096⟩,
            ⟨ascii "0x00", none⟩]
        = .ok (⟨fromHex (JsValue.string ⟨ascii "0x1234", none⟩),
            fromHex (JsValue.string ⟨ascii "0xdead", none⟩), 4096, some seed⟩, none) :=
  ⟨rfl, nmSetConfig_replaces_all keccakPrimitives Globals.zero ⟨ascii "0x1234", none⟩
    ⟨ascii "0xdead", none⟩ ⟨ascii "4096", some 4096⟩ ⟨ascii "0x00", none⟩ 4096 rfl⟩

/-! ## The exact score -/

theorem scoreVal_nibbles (a t : Nat) (ha : a < 256) (ht : t < 256) :
    scoreVal a t + (a / 16 + a % 16) = 30 + (t / 16 + t % 16) := by
  have h1 : a / 16 % 256 = a / 16 := Nat.mod_eq_of_lt (by omega)
  have h2 : t / 16 % 256 = t / 16 := Nat.mod_eq_of_lt (by omega)
  have hah : a / 16 < 16 := by omega
  have hth : t / 16 < 16 := by omega
  have hal : a % 16 < 16 := Nat.mod_lt _ (by norm_num)
  have htl : t % 16 < 16 := Nat.mod_lt _ (by norm_num)
  rw [scoreVal_eq_nibbleValue, h1, h2, nibbleValue_eq _ _ hah hth,
    nibbleValue_eq _ _ hal htl]
  unfold u8add
  generalize a / 16 = ah at hah ⊢
  generalize t / 16 = th at hth ⊢
  generalize a % 16 = al at hal ⊢
  generalize t % 16 = tl at htl ⊢
  omega

theorem nibbleSum_take_succ (xs : List Nat) (k : Nat) (h : k < xs.length) :
    nibbleSum (xs.take (k + 1))
      = nibbleSum (xs.take k) + (xs.get ⟨k, h⟩ / 16 + xs.get ⟨k, h⟩ % 16) := by
  simp only [nibbleSum, List.take_succ, List.getElem?_eq_getElem h, Option.toList,
    List.map_append, List.sum_append, List.map_cons, List.map_nil, List.sum_cons,
    List.sum_nil, List.get_eq_getElem, Nat.add_zero]

theorem nibbleSum_le (xs : List Nat) (hx : ∀ b ∈ xs, b < 256) :
    nibbleSum xs ≤ 30 * xs.length := by
  induction xs with
  | nil => simp [nibbleSum]
  | cons b rest ih =>
    have hb : b < 256 := hx b (List.mem_cons_self b rest)
    have hr := ih (fun c hc => hx c (List.mem_cons_of_mem b hc))
    simp only [nibbleSum, List.map_cons, List.sum_cons, List.length_cons] at hr ⊢
    omega

theorem scoreLoop_succ_eq (addr suffix : List Nat) (hlen : addr.length = 20)
    (hL : suffix.length ≤ 20) (k : Nat) (hk : k < suffix.length) :
    scoreLoop addr suffix (k + 1) =
      match scoreLoop addr suffix k with
      | .error e => .error e
      | .ok s =>
        .ok (s + scoreVal (addr.get ⟨20 - suffix.length + k, by omega⟩) (suffix.get ⟨k, hk⟩)) := by
  have hpos : (20 : Int) - (suffix.length : Int) + (k : Int)
      = ((20 - suffix.length + k : Nat) : Int) := by omega
  have h1 : 20 - suffix.length + k < addr.length := by omega
  simp only [scoreLoop, hpos, byteAt_natCast _ _ h1, byteAt_natCast _ _ hk]

theorem scoreLoop_formula (addr suffix : List Nat) (hlen : addr.length = 20)
    (hL : suffix.length ≤ 20) (ha : ∀ b ∈ addr, b < 256) (hs : ∀ b ∈ suffix, b < 256) :
    ∀ k, k ≤ suffix.length → ∃ s, scoreLoop addr suffix k = .ok s ∧
      s + nibbleSum ((addr.drop (20 - suffix.length)).take k)
        = 30 * k + nibbleSum (suffix.take k) := by
  intro k
  induction k with
  | zero => intro _; exact ⟨0, rfl, by simp [nibbleSum]⟩
  | succ k ih =>
    intro hk
    obtain ⟨s, hs1, hs2⟩ := ih (by omega)
    have hk1 : k < suffix.length := by omega
    have hd : k < (addr.drop (20 - suffix.length)).length := by
      rw [List.length_drop]; omega
    have h1 : 20 - suffix.length + k < addr.length := by omega
    rw [scoreLoop_succ_eq addr suffix hlen hL k hk1, hs1]
    refine ⟨_, rfl, ?_⟩
    rw [nibbleSum_take_succ _ k hd, nibbleSum_take_succ _ k hk1]
    have hget : (addr.drop (20 - suffix.length)).get ⟨k, hd⟩
        = addr.get ⟨20 - suffix.length + k, h1⟩ := by
      simp [List.getElem_drop]
    rw [hget]
    have hav : addr.get ⟨20 - suffix.length + k, h1⟩ < 256 := ha _ (List.get_mem _ _ _)
    have htv : suffix.get ⟨k, hk1⟩ < 256 := hs _ (List.get_mem _ _ _)
    have := scoreVal_nibbles _ _ hav htv
    omega

theorem score_formula (addr suffix : List Nat) (hlen : addr.length = 20)
    (hL : suffix.length ≤ 20) (ha : ∀ b ∈ addr, b < 256) (hs : ∀ b ∈ suffix, b < 256) :
    ∃ s, score addr suffix = .ok s ∧
      s + nibbleSum (addr.drop (20 - suffix.length)) = 30 * suffix.length + nibbleSum suffix := by
  obtain ⟨s, h1, h2⟩ := scoreLoop_formula addr suffix hlen hL ha hs suffix.length (Nat.le_refl _)
  refine ⟨s, h1, ?_⟩
  have hd : (addr.drop (20 - suffix.length)).length = suffix.length := by
    rw [List.length_drop]; omega
  rw [List.take_of_length_le (by omega), List.take_of_length_le (Nat.le_refl _)] at h2
  exact h2

theorem scoreLoop_long_suffix (addr suffix : List Nat) (hL : 20 < suffix.length) :
    ∀ k, scoreLoop addr suffix (k + 1) = .error .indexOutOfRange := by
  intro k
  induction k with
  | zero =>
    have hneg : (20 : Int) - (suffix.length : Int) + ((0 : Nat) : Int) < 0 := by omega
    simp only [scoreLoop, byteAt_neg _ _ hneg]
  | succ k ih => rw [scoreLoop, ih]

theorem score_long_suffix (addr suffix : List Nat) (hL : 20 < suffix.length) :
    score addr suffix = .error .indexOutOfRange := by
  unfold score
  obtain ⟨m, hm⟩ : ∃ m, suffix.length = m + 1 := ⟨suffix.length - 1, by omega⟩
  rw [hm]
  have := scoreLoop_long_suffix addr suffix hL m
  exact this

theorem score_ok_length (addr suffix : List Nat) (s : Nat) (h : score addr suffix = .ok s) :
    suffix.length ≤ 20 := by
  by_contra hc
  rw [score_long_suffix addr suffix (by omega)] at h
  cases h

/-- C17: the nibble differences are computed in `uint8`, so for a 20-byte address and a
suffix of length `L ≤ 20` the score is exactly `30 * L` plus the sum of the nibbles of the
suffix minus the sum of the nibbles of the last `L` bytes of the address; a nibble
contributes `15 + t - a`, between 0 and 30, the score is at most `60 * L`, and a
non-matching address can score more than an exact match (60 against 30 for suffix `0xff`). -/
theorem score_exact_formula (addr suffix : List Nat) (hlen : addr.length = 20)
    (hL : suffix.length ≤ 20) (ha : ∀ b ∈ addr, b < 256) (hs : ∀ b ∈ suffix, b < 256) :
    (∃ s, score addr suffix = .ok s ∧
      (s : Int) = 30 * (suffix.length : Int) + (nibbleSum suffix : Int)
        - (nibbleSum (addr.drop (20 - suffix.length)) : Int) ∧
      s ≤ 60 * suffix.length) ∧
    (∀ a t, a < 16 → t < 16 → nibbleValue a t = 15 + t - a ∧ nibbleValue a t ≤ 30) ∧
    (score (List.replicate 20 0) [0xff] = .ok 60 ∧
      score (List.replicate 19 0 ++ [0xff]) [0xff] = .ok 30) := by
  obtain ⟨s, h1, h2⟩ := score_formula addr suffix hlen hL ha hs
  have hle := nibbleSum_le suffix hs
  refine ⟨⟨s, h1, by omega, by omega⟩, ?_, by decide⟩
  intro a t hat htt
  have := nibbleValue_eq a t hat htt
  omega

/-- A concrete instance of C17: the sample address against the suffix `0xdead`. -/
theorem score_exact_formula_witness :
    (sampleAddr.length = 20 ∧ [0xde, 0xad].length ≤ 20 ∧ (∀ b ∈ sampleAddr, b < 256)
      ∧ (∀ b ∈ [0xde, 0xad], b < 256)) ∧
    ((∃ s, score sampleAddr [0xde, 0xad] = .ok s ∧
      (s : Int) = 30 * (([0xde, 0xad] : List Nat).length : Int)
        + (nibbleSum [0xde, 0xad] : Int)
        - (nibbleSum (sampleAddr.drop (20 - ([0xde, 0xad] : List Nat).length)) : Int) ∧
      s ≤ 60 * ([0xde, 0xad] : List Nat).length) ∧
    (∀ a t, a < 16 → t < 16 → nibbleValue a t = 15 + t - a ∧ nibbleValue a t ≤ 30) ∧
    (score (List.replicate 20 0) [0xff] = .ok 60 ∧
      score (List.replicate 19 0 ++ [0xff]) [0xff] = .ok 30)) :=
  ⟨⟨by decide, by decide, by decide, by decide⟩,
    score_exact_formula sampleAddr [0xde, 0xad] (by decide) (by decide) (by decide)
      (by decide)⟩

/-! ## Suffix length and suffix content -/

theorem getCreateAddr_eq_drop (P : Primitives) (deployer : List Nat) :
    getCreateAddr P deployer
      = (keccak256 P [[0xd6, 0x94] ++ deployer ++ [0x80]]).drop 12 := by
  have hk : (keccak256 P [[0xd6, 0x94] ++ deployer ++ [0x80]]).length = 32 :=
    P.keccak_length _
  have hd : ((keccak256 P [[0xd6, 0x94] ++ deployer ++ [0x80]]).drop 12).length = 20 := by
    rw [List.length_drop, hk]
  have hg : getCreateAddr P deployer
      = goCopy (List.replicate 20 0)
          ((keccak256 P [[0xd6, 0x94] ++ deployer ++ [0x80]]).drop 12) := rfl
  rw [hg, goCopy_zeros_of_length _ hd]

theorem candidateAddr_byte (P : Primitives) (g : Globals) (nonce : Nat) (a : List Nat)
    (h : candidateAddr P g nonce = .ok a) : ∀ b ∈ a, b < 256 := by
  unfold candidateAddr at h
  split at h
  · cases h
  · cases h
  · cases h
    intro b hb
    rw [getCreateAddr_eq_drop] at hb
    exact P.keccak_byte _ b (List.mem_of_mem_drop hb)

theorem candidateAddr_congr (P : Primitives) (g1 g2 : Globals)
    (hh : g1.inputHash = g2.inputHash) (nonce : Nat) :
    candidateAddr P g1 nonce = candidateAddr P g2 nonce := by
  simp only [candidateAddr, hh]

theorem candidateScore_formula (P : Primitives) (g : Globals) (n j c s : Nat) (a : List Nat)
    (hb : ∀ b ∈ g.outputSuffix, b < 256) (h : candidateScore P g n j = .ok (c, a, s)) :
    s + nibbleSum (a.drop (20 - g.outputSuffix.length))
      = 30 * g.outputSuffix.length + nibbleSum g.outputSuffix := by
  obtain ⟨pre, _, _, haddr, hsc⟩ := candidateScore_ok P g n j c s a h
  have hlen := candidateAddr_length P g c a haddr
  have hbytes := candidateAddr_byte P g c a haddr
  have hL := score_ok_length a g.outputSuffix s hsc
  obtain ⟨s1, h1, h2⟩ := score_formula a g.outputSuffix hlen hL hbytes hb
  rw [hsc] at h1
  cases h1
  exact h2

theorem runHashSearch_selected (P : Primitives) (g : Globals) (n : Nat) (addr : List Nat)
    (nonce : Nat) (h : runHashSearch P g n = .ok (addr, nonce)) :
    ∃ i best, i < g.maxRounds.toNat ∧ candidateScore P g n i = .ok (nonce, addr, best) ∧
      (∀ j, j < g.maxRounds.toNat →
        ∃ c a s, candidateScore P g n j = .ok (c, a, s) ∧ s ≤ best) ∧
      (∀ j, j < i → ∃ c a s, candidateScore P g n j = .ok (c, a, s) ∧ s < best) := by
  obtain ⟨st, hst, hn, ha⟩ := runHashSearch_ok P g n addr nonce h
  obtain ⟨hall, hbest⟩ := runHashLoop_inv P g n _ st hst
  rcases hbest with h0 | ⟨i, c, a, s, hi, hc, heq, _, hlt⟩
  · rw [h0] at hn
    cases hn
  · subst heq
    simp only at ha hn hall
    subst ha
    cases hn
    exact ⟨i, s, hi, hc, hall, hlt⟩

/-- C19: for a suffix of length `L ≤ 20` every index `20 - L + i` with `i < L` lies in
`[0, 20)` and scoring a 20-byte address returns a score; `nmSetConfig` stores a suffix of
any length, and for `L > 20` the scorer indexes the address at a negative position in its
first iteration, so the search returns no result: it panics with the index error as soon as
the first candidate has an address. -/
theorem scorer_index_bounds (P : Primitives) (g : Globals) (addr : List Nat)
    (hlen : addr.length = 20) :
    (g.outputSuffix.length ≤ 20 →
      (∀ i : Nat, i < g.outputSuffix.length →
        0 ≤ (20 : Int) - (g.outputSuffix.length : Int) + (i : Int)
          ∧ (20 : Int) - (g.outputSuffix.length : Int) + (i : Int) < 20)
      ∧ ∃ s, score addr g.outputSuffix = .ok s) ∧
    (∀ g0 a0 a1 a2 a3 rounds, JsValue.int a2 = some rounds →
      ∃ g1, nmSetConfig P g0 [a0, a1, a2, a3] = .ok (g1, none)
        ∧ g1.outputSuffix = fromHex a1.string) ∧
    (20 < g.outputSuffix.length →
      (20 : Int) - (g.outputSuffix.length : Int) + ((0 : Nat) : Int) < 0
      ∧ score addr g.outputSuffix = .error .indexOutOfRange
      ∧ (∀ n r, runHashSearch P g n ≠ .ok r)
      ∧ (∀ n pre a, 0 < g.maxRounds → g.preimage = some pre →
          candidateAddr P g (candidate n 0 pre) = .ok a →
          runHashSearch P g n = .error .indexOutOfRange)) := by
  refine ⟨?_, ?_, ?_⟩
  · intro hL
    refine ⟨fun i hi => by omega, ?_⟩
    have hall : ∀ k, k ≤ g.outputSuffix.length → ∃ s, scoreLoop addr g.outputSuffix k = .ok s := by
      intro k
      induction k with
      | zero => intro _; exact ⟨0, rfl⟩
      | succ k ih =>
        intro hk
        obtain ⟨s, hs⟩ := ih (by omega)
        rw [scoreLoop_succ_eq addr g.outputSuffix hlen hL k (by omega), hs]
        exact ⟨_, rfl⟩
    exact hall _ (Nat.le_refl _)
  · intro g0 a0 a1 a2 a3 rounds h2
    exact ⟨setConfig P a0.string a1.string rounds a3.string,
      by simp only [nmSetConfig, h2], rfl⟩
  · intro hL
    refine ⟨by omega, score_long_suffix addr g.outputSuffix hL, ?_, ?_⟩
    · intro n r hr
      obtain ⟨a, c⟩ := r
      obtain ⟨i, best, _, hc, _, _⟩ := runHashSearch_selected P g n a c hr
      obtain ⟨_, _, _, _, hsc⟩ := candidateScore_ok P g n i c best a hc
      rw [score_long_suffix a g.outputSuffix hL] at hsc
      cases hsc
    · intro n pre a hr hpre ha
      have h1 : runHashLoop P g n (0 + 1) = .error .indexOutOfRange := by
        simp only [runHashLoop, runHashRound, candidateScore, hpre, ha,
          score_long_suffix a g.outputSuffix hL]
      have hend := runHashLoop_error_mono P g n (0 + 1) _ h1 g.maxRounds.toNat (by omega)
      simp only [runHashSearch, hend]

/-- A concrete instance of C19: the sample address, a 21-byte suffix, one round. -/
theorem scorer_index_bounds_witness :
    sampleAddr.length = 20 ∧ 20 < cfgLong.outputSuffix.length ∧
    score sampleAddr cfgLong.outputSuffix = .error .indexOutOfRange ∧
    runHashSearch toy cfgLong 0 = .error .indexOutOfRange ∧
    ((cfgLong.outputSuffix.length ≤ 20 →
      (∀ i : Nat, i < cfgLong.outputSuffix.length →
        0 ≤ (20 : Int) - (cfgLong.outputSuffix.length : Int) + (i : Int)
          ∧ (20 : Int) - (cfgLong.outputSuffix.length : Int) + (i : Int) < 20)
      ∧ ∃ s, score sampleAddr cfgLong.outputSuffix = .ok s) ∧
    (∀ g0 a0 a1 a2 a3 rounds, JsValue.int a2 = some rounds →
      ∃ g1, nmSetConfig toy g0 [a0, a1, a2, a3] = .ok (g1, none)
        ∧ g1.outputSuffix = fromHex a1.string) ∧
    (20 < cfgLong.outputSuffix.length →
      (20 : Int) - (cfgLong.outputSuffix.length : Int) + ((0 : Nat) : Int) < 0
      ∧ score sampleAddr cfgLong.outputSuffix = .error .indexOutOfRange
      ∧ (∀ n r, runHashSearch toy cfgLong n ≠ .ok r)
      ∧ (∀ n pre a, 0 < cfgLong.maxRounds → cfgLong.preimage = some pre →
          candidateAddr toy cfgLong (candidate n 0 pre) = .ok a →
          runHashSearch toy cfgLong n = .error .indexOutOfRange))) :=
  ⟨by decide, by decide, by decide, by decide,
    scorer_index_bounds toy cfgLong sampleAddr (by decide)⟩

/-- C18: the selected candidate does not depend on the content of the target suffix, only
on its length: two configurations that differ only in suffix bytes of the same length
return, for the same starting nonce, the same (address, nonce) pair whenever both searches
return one, and that pair is the first candidate that minimises the nibble sum of the last
`L` bytes of its address. -/
theorem suffix_content_irrelevant (P : Primitives) (g1 g2 : Globals) (n : Nat)
    (hh : g1.inputHash = g2.inputHash) (hr : g1.maxRounds = g2.maxRounds)
    (hp : g1.preimage = g2.preimage)
    (hl : g1.outputSuffix.length = g2.outputSuffix.length)
    (hb1 : ∀ b ∈ g1.outputSuffix, b < 256) (hb2 : ∀ b ∈ g2.outputSuffix, b < 256)
    (r1 r2 : List Nat × Nat)
    (h1 : runHashSearch P g1 n = .ok r1) (h2 : runHashSearch P g2 n = .ok r2) :
    r1 = r2 ∧
    ∃ i best, i < g1.maxRounds.toNat ∧ candidateScore P g1 n i = .ok (r1.2, r1.1, best) ∧
      (∀ j, j < g1.maxRounds.toNat → ∃ c a s, candidateScore P g1 n j = .ok (c, a, s) ∧
        nibbleSum (r1.1.drop (20 - g1.outputSuffix.length))
          ≤ nibbleSum (a.drop (20 - g1.outputSuffix.length))) ∧
      (∀ j, j < i → ∃ c a s, candidateScore P g1 n j = .ok (c, a, s) ∧
        nibbleSum (r1.1.drop (20 - g1.outputSuffix.length))
          < nibbleSum (a.drop (20 - g1.outputSuffix.length))) := by
  obtain ⟨a1, c1⟩ := r1
  obtain ⟨a2, c2⟩ := r2
  obtain ⟨i1, s1, hi1, hc1, hall1, hlt1⟩ := runHashSearch_selected P g1 n a1 c1 h1
  obtain ⟨i2, s2, hi2, hc2, hall2, hlt2⟩ := runHashSearch_selected P g2 n a2 c2 h2
  have f1 := candidateScore_formula P g1 n i1 c1 s1 a1 hb1 hc1
  have f2 := candidateScore_formula P g2 n i2 c2 s2 a2 hb2 hc2
  -- the same round yields the same nonce and address in both configurations
  have same : ∀ j c a s c3 a3 s3, candidateScore P g1 n j = .ok (c, a, s) →
      candidateScore P g2 n j = .ok (c3, a3, s3) → c = c3 ∧ a = a3 := by
    intro j c a s c3 a3 s3 hx hy
    obtain ⟨p1, hp1, hcx, hax, _⟩ := candidateScore_ok P g1 n j c s a hx
    obtain ⟨p2, hp2, hcy, hay, _⟩ := candidateScore_ok P g2 n j c3 s3 a3 hy
    rw [hp, hp2] at hp1
    cases hp1
    subst hcx
    subst hcy
    rw [candidateAddr_congr P g1 g2 hh, hay] at hax
    cases hax
    exact ⟨rfl, rfl⟩
  have hidx : i1 = i2 := by
    rcases Nat.lt_trichotomy i1 i2 with hlt | heq | hgt
    · -- round i1 is earlier than the round selected under g2
      obtain ⟨c, a, s, hx, hs⟩ := hlt2 i1 hlt
      obtain ⟨c3, a3, s3, hy, hs3⟩ := hall1 i2 (by rw [hr]; exact hi2)
      obtain ⟨_, e1⟩ := same i1 c1 a1 s1 c a s hc1 hx
      obtain ⟨_, e2⟩ := same i2 c3 a3 s3 c2 a2 s2 hy hc2
      subst e1
      subst e2
      have fx := candidateScore_formula P g2 n i1 c s a1 hb2 hx
      have fy := candidateScore_formula P g1 n i2 c3 s3 a3 hb1 hy
      rw [hl] at f1 fy
      omega
    · exact heq
    · obtain ⟨c, a, s, hx, hs⟩ := hlt1 i2 hgt
      obtain ⟨c3, a3, s3, hy, hs3⟩ := hall2 i1 (by rw [← hr]; exact hi1)
      obtain ⟨_, e1⟩ := same i2 c a s c2 a2 s2 hx hc2
      obtain ⟨_, e2⟩ := same i1 c1 a1 s1 c3 a3 s3 hc1 hy
      subst e1
      subst e2
      have fx := candidateScore_formula P g1 n i2 c s a hb1 hx
      have fy := candidateScore_formula P g2 n i1 c3 s3 a1 hb2 hy
      rw [hl] at f1 fx
      omega
  subst hidx
  obtain ⟨ec, ea⟩ := same i1 c1 a1 s1 c2 a2 s2 hc1 hc2
  subst ec
  subst ea
  refine ⟨rfl, i1, s1, hi1, hc1, ?_, ?_⟩
  · intro j hj
    obtain ⟨c, a, s, hx, hs⟩ := hall1 j hj
    have fx := candidateScore_formula P g1 n j c s a hb1 hx
    exact ⟨c, a, s, hx, by simp only; omega⟩
  · intro j hj
    obtain ⟨c, a, s, hx, hs⟩ := hlt1 j hj
    have fx := candidateScore_formula P g1 n j c s a hb1 hx
    exact ⟨c, a, s, hx, by simp only; omega⟩

/-- A concrete instance of C18: the suffixes `0xdead` and `0x0000`, three rounds. -/
theorem suffix_content_irrelevant_witness :
    (cfgThree.inputHash = cfgThreeZero.inputHash ∧ cfgThree.maxRounds = cfgThreeZero.maxRounds
      ∧ cfgThree.preimage = cfgThreeZero.preimage
      ∧ cfgThree.outputSuffix.length = cfgThreeZero.outputSuffix.length
      ∧ (∀ b ∈ cfgThree.outputSuffix, b < 256) ∧ (∀ b ∈ cfgThreeZero.outputSuffix, b < 256)
      ∧ runHashSearch toy cfgThree 0 = .ok (sampleAddr, 7)
      ∧ runHashSearch toy cfgThreeZero 0 = .ok (sampleAddr, 7)) ∧
    (((sampleAddr, 7) : List Nat × Nat) = (sampleAddr, 7) ∧
    ∃ i best, i < cfgThree.maxRounds.toNat
      ∧ candidateScore toy cfgThree 0 i = .ok (7, sampleAddr, best) ∧
      (∀ j, j < cfgThree.maxRounds.toNat →
        ∃ c a s, candidateScore toy cfgThree 0 j = .ok (c, a, s) ∧
          nibbleSum (sampleAddr.drop (20 - cfgThree.outputSuffix.length))
            ≤ nibbleSum (a.drop (20 - cfgThree.outputSuffix.length))) ∧
      (∀ j, j < i → ∃ c a s, candidateScore toy cfgThree 0 j = .ok (c, a, s) ∧
        nibbleSum (sampleAddr.drop (20 - cfgThree.outputSuffix.length))
          < nibbleSum (a.drop (20 - cfgThree.outputSuffix.length)))) :=
  ⟨⟨rfl, rfl, rfl, rfl, by decide, by decide, by decide, by decide⟩,
    suffix_content_irrelevant toy cfgThree cfgThreeZero 0 rfl rfl rfl rfl (by decide)
      (by decide) (sampleAddr, 7) (sampleAddr, 7) (by decide) (by decide)⟩

/-! ## The output string -/

theorem hexDigit_eq_alphabet : ∀ d, d < 16 → hexDigit d = hexAlphabet.getD d 0 := by
  decide

theorem hexEncode_eq_specHexLower (bs : List Nat) (hbs : ∀ b ∈ bs, b < 256) :
    hexEncode bs = specHexLower bs := by
  induction bs with
  | nil => rfl
  | cons b rest ih =>
    have hb : b < 256 := hbs b (List.mem_cons_self b rest)
    have hr := ih (fun c hc => hbs c (List.mem_cons_of_mem b hc))
    rw [hexEncode_cons, hr]
    have h16 : b / 16 % 16 = b / 16 := Nat.mod_eq_of_lt (by omega)
    rw [h16, hexDigit_eq_alphabet _ (by omega : b / 16 < 16),
      hexDigit_eq_alphabet _ (Nat.mod_lt _ (by norm_num : 16 > 0))]
    simp [specHexLower]

theorem specBigEndian_digits (n : Nat) :
    ∀ m, specBigEndian ((List.range m).map (fun k => n / 256 ^ (m - 1 - k) % 256))
      = n % 256 ^ m := by
  intro m
  induction m with
  | zero => simp [specBigEndian, Nat.mod_one]
  | succ m ih =>
    have hrest : (List.range m).map
        ((fun k => n / 256 ^ (m + 1 - 1 - k) % 256) ∘ Nat.succ)
        = (List.range m).map (fun k => n / 256 ^ (m - 1 - k) % 256 / 1 * 1) := by
      apply List.map_congr_left
      intro k hk
      have hk1 : k < m := List.mem_range.mp hk
      have e : m + 1 - 1 - (k + 1) = m - 1 - k := by omega
      simp only [Function.comp, Nat.succ_eq_add_one, e, Nat.div_one, Nat.mul_one]
    simp only [Nat.div_one, Nat.mul_one] at hrest
    rw [List.range_succ_eq_map, List.map_cons, List.map_map, hrest]
    simp only [specBigEndian, List.length_map, List.length_range, ih]
    have e0 : m + 1 - 1 - 0 = m := by omega
    rw [e0, Nat.mod_pow_succ]
    ring

theorem bigBytes_value (n : Nat) : specBigEndian (bigBytes n) = n := by
  unfold bigBytes
  rw [specBigEndian_digits n (bigLen n), Nat.mod_eq_of_lt (bigLen_bound n)]

theorem bigBytes_byte (n : Nat) : ∀ b ∈ bigBytes n, b < 256 := by
  intro b hb
  simp only [bigBytes, List.mem_map] at hb
  obtain ⟨k, _, rfl⟩ := hb
  exact Nat.mod_lt _ (by norm_num)

theorem bigLen_lower (n : Nat) (h : 0 < bigLen n) : 256 ^ (bigLen n - 1) ≤ n := by
  by_contra hc
  have := bigLen_le n (bigLen n - 1) (by omega)
  omega

theorem bigBytes_head (n : Nat) : (bigBytes n).head? ≠ some 0 := by
  unfold bigBytes
  cases hL : bigLen n with
  | zero => simp
  | succ m =>
    rw [List.range_succ_eq_map]
    simp only [List.map_cons, List.head?_cons, ne_eq, Option.some.injEq]
    have hlow := bigLen_lower n (by omega)
    have hup := bigLen_bound n
    rw [hL] at hlow hup
    have e : m + 1 - 1 - 0 = m := by omega
    have e1 : m + 1 - 1 = m := by omega
    rw [e]
    rw [e1] at hlow
    rw [Nat.pow_succ] at hup
    have hpos : 0 < 256 ^ m := by positivity
    have h1 : 1 ≤ n / 256 ^ m := (Nat.le_div_iff_mul_le hpos).mpr (by omega)
    have h2 : n / 256 ^ m < 256 := (Nat.div_lt_iff_lt_mul hpos).mpr (by omega)
    omega

/-- C12 fails as stated: the string returned for three rounds under the stand-in primitives
starts with `0x`; it is not the bare hex encoding of address and nonce. -/
theorem runHash_output_starts_with_0x :
    runHash toy cfgThree [ascii "0x0"]
      = .ok (ascii "0x76e95ccf33a6197df063c73aad1184f75bce41b407") ∧
    runHash toy cfgThree [ascii "0x0"]
      ≠ .ok (specHexLower sampleAddr ++ specHexLower (bigBytes 7)) := by
  decide

/-- C12, amended: for every search that finds a candidate, the returned string is exactly
`0x` followed by the lowercase hex encoding of the 20-byte best address followed by the
lowercase hex encoding of the minimal big-endian byte encoding of the best nonce (bytes
that denote the nonce, without a leading zero byte). -/
theorem runHash_output_format (P : Primitives) (g : Globals) (arg addr : List Nat)
    (nonce : Nat)
    (h : runHashSearch P g (setBytes (fromHex arg) <<< 16) = .ok (addr, nonce)) :
    runHash P g [arg]
      = .ok (ascii "0x" ++ specHexLower addr ++ specHexLower (bigBytes nonce)) ∧
    addr.length = 20 ∧ specBigEndian (bigBytes nonce) = nonce ∧
    (bigBytes nonce).head? ≠ some 0 ∧ (∀ b ∈ bigBytes nonce, b < 256) := by
  obtain ⟨i, best, _, hc, _, _⟩ := runHashSearch_selected P g _ addr nonce h
  obtain ⟨_, _, _, haddr, _⟩ := candidateScore_ok P g _ i nonce best addr hc
  have hlen := candidateAddr_length P g nonce addr haddr
  have hbytes := candidateAddr_byte P g nonce addr haddr
  refine ⟨?_, hlen, bigBytes_value nonce, bigBytes_head nonce, bigBytes_byte nonce⟩
  simp only [runHash, h, hexEncode_eq_specHexLower addr hbytes,
    hexEncode_eq_specHexLower _ (bigBytes_byte nonce)]

/-- A concrete instance of the amended C12: three rounds under the stand-in primitives. -/
theorem runHash_output_format_witness :
    runHashSearch toy cfgThree (setBytes (fromHex (ascii "0x0")) <<< 16)
      = .ok (sampleAddr, 7) ∧
    (runHash toy cfgThree [ascii "0x0"]
      = .ok (ascii "0x" ++ specHexLower sampleAddr ++ specHexLower (bigBytes 7)) ∧
    sampleAddr.length = 20 ∧ specBigEndian (bigBytes 7) = 7 ∧
    (bigBytes 7).head? ≠ some 0 ∧ (∀ b ∈ bigBytes 7, b < 256)) :=
  ⟨by decide, runHash_output_format toy cfgThree (ascii "0x0") sampleAddr 7 (by decide)⟩

/-! ## The end-to-end scenario -/

theorem seed_lt (P : Primitives) (x : List Nat) :
    setBytes ((keccak256 P [x]).take 16) < 2 ^ 128 := by
  have hbytes : ∀ b ∈ (keccak256 P [x]).take 16, b < 256 := by
    intro b hb
    exact P.keccak_byte _ b (List.mem_of_mem_take hb)
  have hlen : ((keccak256 P [x]).take 16).length = 16 := by
    rw [List.length_take, show (keccak256 P [x]).length = 32 from P.keccak_length _]
    rfl
  have hlt := specBigEndian_lt _ hbytes
  rw [hlen] at hlt
  rw [setBytes_eq_specBigEndian _ hbytes]
  calc specBigEndian ((keccak256 P [x]).take 16) < 256 ^ 16 := hlt
    _ = 2 ^ 128 := by norm_num

theorem candidateAddr_ok_of_recover (P : Primitives) (g : Globals) (nonce : Nat)
    (hn : nonce < 2 ^ 256) (pub : List Nat)
    (hrec : P.recoverCompact ([27] ++ specField32 0x539 ++ specField32 nonce) g.inputHash
      = .ok pub) :
    candidateAddr P g nonce = .ok (getCreateAddr P ((keccak256 P [pub.drop 1]).drop 12)) := by
  have h1 := recoverPlainSig_fits 0x539 nonce 27 (by norm_num) hn
  have h2 : sigToPubBuffer (specField32 0x539 ++ specField32 nonce
      ++ [(27 % 2 ^ 64 + (2 ^ 64 - 27)) % 2 ^ 64 % 256])
      = .ok ([27] ++ specField32 0x539 ++ specField32 nonce) := by
    rw [sigToPubBuffer_of _ _ (by simp [specField32_length])]
    rfl
  have h3 := recoverPlain_of_buffer P g.inputHash 0x539 nonce 27 _ _ h1 h2
  rw [hrec] at h3
  simp only [candidateAddr, h3]

theorem runHashSearch_ok_of_positive (P : Primitives) (g : Globals) (n : Nat)
    (hr : 0 < g.maxRounds.toNat)
    (hall : ∀ j, j < g.maxRounds.toNat →
      ∃ c a s, candidateScore P g n j = .ok (c, a, s) ∧ 0 < s) :
    ∃ addr nonce, runHashSearch P g n = .ok (addr, nonce) := by
  obtain ⟨st, hst⟩ := runHashLoop_ok_of_all P g n _
    (fun j hj => by obtain ⟨c, a, s, h, _⟩ := hall j hj; exact ⟨_, h⟩)
  obtain ⟨hle, hbest⟩ := runHashLoop_inv P g n _ st hst
  obtain ⟨c, a, s, hc, hs⟩ := hall 0 hr
  obtain ⟨c1, a1, s1, hc1, hs1⟩ := hle 0 hr
  rw [hc] at hc1
  cases hc1
  rcases hbest with h0 | ⟨k, c2, a2, s2, _, _, heq, _, _⟩
  · rw [h0] at hs1
    simp only at hs1
    omega
  · subst heq
    exact ⟨a2, c2, by simp only [runHashSearch, hst]⟩

theorem xor_small_ge (i seed k : Nat) (hi : i < 2 ^ k) (hs : 2 ^ k ≤ seed) :
    2 ^ k ≤ i ^^^ seed := by
  by_contra hc
  have hlt : i ^^^ (i ^^^ seed) < 2 ^ k := Nat.xor_lt_two_pow hi (by omega)
  rw [Nat.xor_cancel_left] at hlt
  omega

theorem scenario_search (P : Primitives)
    (hrec : ∀ j, j < 4096 → ∃ pub, P.recoverCompact
      ([27] ++ specField32 0x539 ++ specField32 (candidate 0 j (scenarioSeed P)))
      (scenarioGlobals P).inputHash = .ok pub) :
    ∃ out addr i, i < 4096 ∧ addr.length = 20 ∧
      runHash P (scenarioGlobals P) [ascii "0x0"] = .ok out ∧
      out = ascii "0x" ++ hexEncode addr
        ++ hexEncode (bigBytes (candidate (0 <<< 16) i (scenarioSeed P))) ∧
      (fromHex out).length = 20 + bigLen (candidate (0 <<< 16) i (scenarioSeed P)) ∧
      20 ≤ (fromHex out).length ∧ (fromHex out).length ≤ 36 ∧
      (2 ^ 120 ≤ scenarioSeed P → (fromHex out).length = 36) := by
  have hseed : scenarioSeed P < 2 ^ 128 := seed_lt P _
  have hsuf : (scenarioGlobals P).outputSuffix = [0xde, 0xad] := by
    show fromHex (ascii "0xdead") = _
    decide
  have hpre : (scenarioGlobals P).preimage = some (scenarioSeed P) := rfl
  have hrounds : (scenarioGlobals P).maxRounds.toNat = 4096 := rfl
  have hcand : ∀ j, j < 4096 → candidate 0 j (scenarioSeed P) < 2 ^ 128 := by
    intro j hj
    unfold candidate
    exact Nat.xor_lt_two_pow (by omega) hseed
  have hall : ∀ j, j < (scenarioGlobals P).maxRounds.toNat →
      ∃ c a s, candidateScore P (scenarioGlobals P) 0 j = .ok (c, a, s) ∧ 0 < s := by
    intro j hj
    rw [hrounds] at hj
    obtain ⟨pub, hpub⟩ := hrec j hj
    have hc := hcand j hj
    have haddr := candidateAddr_ok_of_recover P (scenarioGlobals P) _
      (by
        calc candidate 0 j (scenarioSeed P) < 2 ^ 128 := hc
          _ < 2 ^ 256 := by norm_num) pub hpub
    have hlen := candidateAddr_length P _ _ _ haddr
    have hbytes := candidateAddr_byte P _ _ _ haddr
    obtain ⟨s, hs1, hs2⟩ := score_formula _ (scenarioGlobals P).outputSuffix hlen
      (by rw [hsuf]; decide) hbytes (by rw [hsuf]; decide)
    have hL : (scenarioGlobals P).outputSuffix.length = 2 := by rw [hsuf]; rfl
    have hns := nibbleSum_le (List.drop (20 - (scenarioGlobals P).outputSuffix.length)
      (getCreateAddr P ((keccak256 P [pub.drop 1]).drop 12)))
      (fun b hb => hbytes b (List.mem_of_mem_drop hb))
    rw [List.length_drop, hlen] at hns
    have hnt : 30 * (scenarioGlobals P).outputSuffix.length
        + nibbleSum (scenarioGlobals P).outputSuffix = 110 := by
      rw [hsuf]
      decide
    rw [hnt] at hs2
    have hpos : 0 < s := by omega
    refine ⟨candidate 0 j (scenarioSeed P),
      getCreateAddr P ((keccak256 P [pub.drop 1]).drop 12), s, ?_, hpos⟩
    simp only [candidateScore, hpre, haddr, hs1]
  obtain ⟨addr, nonce, hsearch⟩ := runHashSearch_ok_of_positive P (scenarioGlobals P) 0
    (by rw [hrounds]; norm_num) hall
  obtain ⟨i, best, hi, hci, _, _⟩ := runHashSearch_selected P _ 0 addr nonce hsearch
  rw [hrounds] at hi
  obtain ⟨pre, hp, hnonce, haddr, _⟩ := candidateScore_ok P _ 0 i nonce best addr hci
  rw [hpre] at hp
  cases hp
  have hlen := candidateAddr_length P _ _ _ haddr
  have hbytes := candidateAddr_byte P _ _ _ haddr
  have hshift : (0 : Nat) <<< 16 = 0 := by decide
  have hstart : setBytes (fromHex (ascii "0x0")) <<< 16 = 0 := by decide
  have hout : runHash P (scenarioGlobals P) [ascii "0x0"]
      = .ok (ascii "0x" ++ hexEncode addr ++ hexEncode (bigBytes nonce)) := by
    simp only [runHash, hstart, hsearch]
  have hdec : fromHex (ascii "0x" ++ hexEncode addr ++ hexEncode (bigBytes nonce))
      = addr ++ bigBytes nonce := by
    have hb : ∀ b ∈ addr ++ bigBytes nonce, b < 256 := by
      intro b hb
      rcases List.mem_append.mp hb with h | h
      · exact hbytes b h
      · exact bigBytes_byte nonce b h
    have := fromHex_0x_hexEncode (addr ++ bigBytes nonce) hb 120 (Or.inl rfl)
    rw [hexEncode_append] at this
    rw [List.append_assoc]
    exact this
  have hnlt : nonce < 2 ^ 128 := by rw [hnonce]; exact hcand i hi
  have hblen : bigLen nonce ≤ 16 := bigLen_le nonce 16 (by norm_num at hnlt ⊢; exact hnlt)
  have hdlen : (fromHex (ascii "0x" ++ hexEncode addr ++ hexEncode (bigBytes nonce))).length
      = 20 + bigLen nonce := by
    rw [hdec, List.length_append, hlen, bigBytes_length]
  have hnonce2 : candidate (0 <<< 16) i (scenarioSeed P) = nonce := by rw [hshift, hnonce]
  refine ⟨ascii "0x" ++ hexEncode addr ++ hexEncode (bigBytes nonce), addr, i, hi, hlen,
    hout, by rw [hnonce2], by rw [hnonce2]; exact hdlen, by omega, by omega, ?_⟩
  intro hbig
  have hge : 2 ^ 120 ≤ nonce := by
    rw [hnonce]
    unfold candidate
    rw [Nat.zero_add]
    exact xor_small_ge i (scenarioSeed P) 120 (by omega) hbig
  have h16 : 16 ≤ bigLen nonce := by
    by_contra hc
    have hb := bigLen_bound nonce
    have hp : 256 ^ bigLen nonce ≤ 256 ^ 15 :=
      Nat.pow_le_pow_right (by norm_num) (by omega)
    have : (256 : Nat) ^ 15 = 2 ^ 120 := by norm_num
    omega
  omega

/-- C16 fails as stated: under Keccak-256 the secondary seed of the scenario is the 16-byte
integer `0xbc36789e7a1e281436464229828f817d`, and with a recovery that accepts every
candidate `runHash` returns a string whose decoded length is 36 bytes, the 20-byte address
plus a 16-byte nonce, not 21 to 23 bytes. -/
theorem scenario_nonce_has_16_bytes :
    scenarioSeed keccakPrimitives = 0xbc36789e7a1e281436464229828f817d ∧
    ∃ out, runHash keccakPrimitives (scenarioGlobals keccakPrimitives) [ascii "0x0"] = .ok out
      ∧ (fromHex out).length = 36 ∧ ¬ (fromHex out).length ≤ 23 := by
  have hs : scenarioSeed keccakPrimitives = 0xbc36789e7a1e281436464229828f817d := by decide
  refine ⟨hs, ?_⟩
  obtain ⟨out, addr, i, _, _, hout, _, _, _, _, h36⟩ :=
    scenario_search keccakPrimitives (fun j _ => ⟨_, rfl⟩)
  have hlen := h36 (by rw [hs]; norm_num)
  exact ⟨out, hout, hlen, by omega⟩

/-- C16, amended: with the configuration of the scenario (digest
`0x00...001234567890123456`, suffix `0xdead`, round budget 4096, preimage `0x00`) and
recovery succeeding for every candidate, `runHash` on `0x0` returns `0x` followed by the
hex of the 20-byte address and of the nonce, the candidate `(0 << 16 + i) XOR SecondarySeed`
with `i < 4096`; the decoded length is 20 plus the byte length of that nonce, between 20
and 36 bytes, and exactly 36 when the top byte of the 128-bit seed is not zero. -/
theorem scenario_output_length (P : Primitives)
    (hrec : ∀ j, j < 4096 → ∃ pub, P.recoverCompact
      ([27] ++ specField32 0x539 ++ specField32 (candidate 0 j (scenarioSeed P)))
      (scenarioGlobals P).inputHash = .ok pub) :
    ∃ out addr i, i < 4096 ∧ addr.length = 20 ∧
      runHash P (scenarioGlobals P) [ascii "0x0"] = .ok out ∧
      out = ascii "0x" ++ hexEncode addr
        ++ hexEncode (bigBytes (candidate (0 <<< 16) i (scenarioSeed P))) ∧
      (fromHex out).length = 20 + bigLen (candidate (0 <<< 16) i (scenarioSeed P)) ∧
      20 ≤ (fromHex out).length ∧ (fromHex out).length ≤ 36 ∧
      (2 ^ 120 ≤ scenarioSeed P → (fromHex out).length = 36) :=
  scenario_search P hrec

/-- A concrete instance of the amended C16: Keccak-256 with a recovery that accepts every
candidate. -/
theorem scenario_output_length_witness :
    (∀ j, j < 4096 → ∃ pub, keccakPrimitives.recoverCompact
      ([27] ++ specField32 0x539
        ++ specField32 (candidate 0 j (scenarioSeed keccakPrimitives)))
      (scenarioGlobals keccakPrimitives).inputHash = .ok pub) ∧
    ∃ out addr i, i < 4096 ∧ addr.length = 20 ∧
      runHash keccakPrimitives (scenarioGlobals keccakPrimitives) [ascii "0x0"] = .ok out ∧
      out = ascii "0x" ++ hexEncode addr
        ++ hexEncode (bigBytes (candidate (0 <<< 16) i (scenarioSeed keccakPrimitives))) ∧
      (fromHex out).length
        = 20 + bigLen (candidate (0 <<< 16) i (scenarioSeed keccakPrimitives)) ∧
      20 ≤ (fromHex out).length ∧ (fromHex out).length ≤ 36 ∧
      (2 ^ 120 ≤ scenarioSeed keccakPrimitives → (fromHex out).length = 36) :=
  ⟨fun _ _ => ⟨_, rfl⟩, scenario_output_length keccakPrimitives (fun _ _ => ⟨_, rfl⟩)⟩

end NickMiner
